import Mathlib

set_option maxHeartbeats 1600000

namespace Yape

/-!
Shallow embedding of the core of the `yape` pipeline executor, for checking the
natural-language specification against the code.

Nodes are represented as elements of `Fin n`; the dependency function
`deps : Fin n → List (Fin n)` stands for what `node._get_dep_nodes()` yields
(the algorithms below never inspect nodes beyond identity and `deps`).
-/

/-!
§ Topological sort — embedding of `topological_sort` from `src/yape/util.py`
(lines 21–76).  The identical code appears as `Runner.__topological_sort` in
`src/yape/grun.py` (lines 94–143), so this embedding covers both.

The Python loop keeps a work `stack` of pairs `(node, state)` where `state` is
`None` for a node that has not been expanded yet and the list of remaining
dependencies afterwards; `visited`, `visiting`, `sorted_nodes` and `path` are
as in the source; `dependant_counts` is a `collections.Counter`, modelled as a
`Multiset`.  The source computes `deps = list(set(node._get_dep_nodes()))`;
the `set()` deduplication is modelled with `List.dedup` (the iteration order
of a Python set is unspecified, so any fixed duplicate-free order is a
faithful model).  `stack.pop()` and `deps.pop()` remove the element that is
processed next; we model the stack and the pending-dependency list with the
processed end at the head.
-/

structure TopoState (n : ℕ) where
  stack : List (Fin n × Option (List (Fin n)))
  visited : Finset (Fin n)
  visiting : Finset (Fin n)
  sorted_nodes : List (Fin n)
  path : List (Fin n)
  counts : Multiset (Fin n)

inductive TopoResult (n : ℕ) where
  | ok (sorted_nodes : List (Fin n)) (counts : Multiset (Fin n))
  | cycleError (path : List (Fin n))
deriving DecidableEq

/-- Total length of the pending-dependency lists on the stack (used only for
termination of the loop). -/
def pendingWork {n : ℕ} (s : TopoState n) : ℕ :=
  (s.stack.map (fun e => (e.2.getD []).length)).sum

/-- Number of nodes not yet visited or visiting (used only for termination). -/
def freshCount {n : ℕ} (s : TopoState n) : ℕ :=
  ((Finset.univ : Finset (Fin n)) \ (s.visited ∪ s.visiting)).card

/-- The `while stack:` loop of `topological_sort`.  On the circular-dependency
error the source raises an exception whose message lists `reversed(path)`
(with the offending node appended); the result here carries that node list. -/
def topoLoop {n : ℕ} (d : Fin n → List (Fin n)) (s : TopoState n) : TopoResult n :=
  match hs : s.stack with
  | [] => .ok s.sorted_nodes s.counts
  | (node, stOpt) :: rest =>
    match stOpt with
    | none =>
      if node ∈ s.visited then
        topoLoop d { s with stack := rest }
      else
        if node ∈ s.visiting then
          .cycleError (s.path ++ [node])
        else
          topoLoop d
            { stack := (node, some (d node).dedup) :: rest
              visited := s.visited
              visiting := insert node s.visiting
              sorted_nodes := s.sorted_nodes
              path := s.path ++ [node]
              counts := s.counts + ((d node).dedup : Multiset (Fin n)) }
    | some ds =>
      match ds with
      | [] =>
        topoLoop d
          { stack := rest
            visited := insert node s.visited
            visiting := s.visiting.erase node
            sorted_nodes := s.sorted_nodes ++ [node]
            path := s.path.dropLast
            counts := s.counts }
      | x :: ds2 =>
        topoLoop d { s with stack := (x, none) :: (node, some ds2) :: rest }
termination_by (freshCount s, pendingWork s, s.stack.length)
decreasing_by
  · -- skip case: same visited/visiting, stack shrinks
    simp only [Prod.lex_def, freshCount, pendingWork, hs, List.map_cons, List.sum_cons,
      Option.getD_none, List.length_nil, List.length_cons, Nat.zero_add]
    exact Or.inr ⟨trivial, Or.inr ⟨trivial, Nat.lt_succ_self _⟩⟩
  · -- fresh case: visited ∪ visiting grows strictly
    rename_i hv hv2
    refine Prod.Lex.left _ _ ?_
    apply Finset.card_lt_card
    constructor
    · apply Finset.sdiff_subset_sdiff (le_refl _)
      intro x hx
      simp only [Finset.mem_union, Finset.mem_insert] at hx ⊢
      tauto
    · intro hsub
      have hnode : node ∈ (Finset.univ : Finset (Fin n)) \ (s.visited ∪ s.visiting) := by
        simp [hv, hv2]
      have h2 := hsub hnode
      simp only [Finset.mem_sdiff, Finset.mem_union, Finset.mem_insert] at h2
      tauto
  · -- finish case: fresh count does not increase, pending equal, stack shrinks
    simp only [Prod.lex_def, freshCount, pendingWork, hs, List.map_cons, List.sum_cons,
      Option.getD_some, Option.getD_none, List.length_nil, List.length_cons, Nat.zero_add]
    have hmono : ((Finset.univ : Finset (Fin n)) \ (insert node s.visited ∪ s.visiting.erase node)).card
        ≤ ((Finset.univ : Finset (Fin n)) \ (s.visited ∪ s.visiting)).card := by
      apply Finset.card_le_card
      apply Finset.sdiff_subset_sdiff (le_refl _)
      intro x hx
      simp only [Finset.mem_union, Finset.mem_insert, Finset.mem_erase] at hx ⊢
      by_cases hxn : x = node
      · tauto
      · tauto
    rcases lt_or_eq_of_le hmono with h | h
    · exact Or.inl h
    · exact Or.inr ⟨h, Or.inr ⟨trivial, Nat.lt_succ_self _⟩⟩
  · -- dep case: same sets, pending work decreases
    simp only [Prod.lex_def, freshCount, pendingWork, hs, List.map_cons, List.sum_cons,
      Option.getD_some, Option.getD_none, List.length_nil, List.length_cons, Nat.zero_add]
    exact Or.inr ⟨trivial, Or.inl (by omega)⟩

/-- `topological_sort(target_nodes)`: the initial stack is
`[(node, None) for node in target_nodes]`. -/
def topological_sort {n : ℕ} (deps : Fin n → List (Fin n)) (targets : List (Fin n)) :
    TopoResult n :=
  topoLoop deps ⟨targets.map (fun t => (t, none)), ∅, ∅, [], [], 0⟩

/-- Dependency edge: `b` is one of the values yielded by `a._get_dep_nodes()`. -/
def depEdge {n : ℕ} (deps : Fin n → List (Fin n)) (a b : Fin n) : Prop :=
  b ∈ deps a

/-- `x` is reachable from the target set along dependency edges. -/
def ReachT {n : ℕ} (deps : Fin n → List (Fin n)) (targets : List (Fin n)) (x : Fin n) : Prop :=
  ∃ t ∈ targets, Relation.ReflTransGen (depEdge deps) t x

/-- Some dependency cycle is reachable from the targets. -/
def HasReachableCycle {n : ℕ} (deps : Fin n → List (Fin n)) (targets : List (Fin n)) : Prop :=
  ∃ c, ReachT deps targets c ∧ Relation.TransGen (depEdge deps) c c

/-- The node list reported by the circular-dependency error names a cycle: it
is a chain of dependency edges whose final node already occurs earlier in the
list (so the segment between the two occurrences is a dependency cycle). -/
def NamesCycle {n : ℕ} (deps : Fin n → List (Fin n)) (p : List (Fin n)) : Prop :=
  (∃ q c, p = q ++ [c] ∧ c ∈ q) ∧ List.Chain' (fun a b => b ∈ deps a) p

/-!
§ Loop invariant for `topoLoop`.

`StackInv deps visited child es rp` describes the part of the stack below the
(possibly present) active `(d, None)` entry: `rp` is the reverse of the DFS
`path`, each path element `p` owns a stack entry `(p, some ds)` whose pending
list `ds` only contains dependencies of `p`, and every dependency of `p` is
either still pending, already fully processed (in `visited`), or is the child
currently being explored directly above `p`.  Below the path entries only
unexpanded `(t, None)` target entries remain.
-/

inductive StackInv {n : ℕ} (deps : Fin n → List (Fin n)) (visited : Finset (Fin n)) :
    Option (Fin n) → List (Fin n × Option (List (Fin n))) → List (Fin n) → Prop where
  | base (child : Option (Fin n)) (es : List (Fin n × Option (List (Fin n))))
      (hnone : ∀ e ∈ es, e.2 = none) : StackInv deps visited child es []
  | step (child : Option (Fin n)) (p : Fin n) (ds : List (Fin n))
      (rest : List (Fin n × Option (List (Fin n)))) (rp : List (Fin n))
      (hds : ∀ d ∈ ds, d ∈ deps p)
      (hcov : ∀ d ∈ deps p, d ∈ ds ∨ d ∈ visited ∨ child = some d)
      (hchild : ∀ c, child = some c → c ∈ deps p)
      (hrest : StackInv deps visited (some p) rest rp) :
      StackInv deps visited child ((p, some ds) :: rest) (p :: rp)

/-- The stack is either entirely described by `StackInv`, or has one active
`(d, None)` entry on top of the `StackInv` part. -/
def TopShape {n : ℕ} (deps : Fin n → List (Fin n)) (visited : Finset (Fin n))
    (stack : List (Fin n × Option (List (Fin n)))) (path : List (Fin n)) : Prop :=
  StackInv deps visited none stack path.reverse ∨
    ∃ d rest, stack = (d, none) :: rest ∧ StackInv deps visited (some d) rest path.reverse

/-- Full loop invariant, parameterised by the initial target list. -/
structure TopoInv {n : ℕ} (deps : Fin n → List (Fin n)) (targets : List (Fin n))
    (s : TopoState n) : Prop where
  shape : TopShape deps s.visited s.stack s.path
  vis_path : s.visiting = s.path.toFinset
  path_nodup : s.path.Nodup
  disj : ∀ x ∈ s.visited, x ∉ s.visiting
  sorted_nodup : s.sorted_nodes.Nodup
  vis_sorted : s.visited = s.sorted_nodes.toFinset
  order : ∀ a ∈ s.sorted_nodes, ∀ b ∈ deps a,
    b ∈ s.sorted_nodes ∧ s.sorted_nodes.indexOf b < s.sorted_nodes.indexOf a
  reach : ∀ x, ((∃ e ∈ s.stack, e.1 = x) ∨ x ∈ s.visiting ∨ x ∈ s.visited) →
    ReachT deps targets x
  tcov : ∀ t ∈ targets, (∃ e ∈ s.stack, e.1 = t) ∨ t ∈ s.visiting ∨ t ∈ s.visited
  cnt : s.counts = ((s.sorted_nodes ++ s.path).map
    (fun x => ((deps x).dedup : Multiset (Fin n)))).sum

lemma StackInv.weaken {n : ℕ} {deps : Fin n → List (Fin n)}
    {visited visited' : Finset (Fin n)} {child child' : Option (Fin n)}
    {es : List (Fin n × Option (List (Fin n)))} {rp : List (Fin n)}
    (h : StackInv deps visited child es rp) (hsub : visited ⊆ visited')
    (hcc : child' = child ∨ (child' = none ∧ ∀ c, child = some c → c ∈ visited')) :
    StackInv deps visited' child' es rp := by
  induction h generalizing child' with
  | base child es hnone => exact .base child' es hnone
  | step child p ds rest rp hds hcov hchild hrest ih =>
    refine .step child' p ds rest rp hds ?_ ?_ (ih (Or.inl rfl))
    · intro d hd
      rcases hcov d hd with h1 | h1 | h1
      · exact Or.inl h1
      · exact Or.inr (Or.inl (hsub h1))
      · rcases hcc with rfl | ⟨rfl, hc⟩
        · exact Or.inr (Or.inr h1)
        · exact Or.inr (Or.inl (hc d h1))
    · intro c hc
      rcases hcc with rfl | ⟨rfl, _⟩
      · exact hchild c hc
      · cases hc

lemma StackInv.inv_nil {n : ℕ} {deps : Fin n → List (Fin n)} {visited : Finset (Fin n)}
    {child : Option (Fin n)} {rp : List (Fin n)}
    (h : StackInv deps visited child [] rp) : rp = [] := by
  cases h with
  | base => rfl

lemma StackInv.inv_cons_none {n : ℕ} {deps : Fin n → List (Fin n)} {visited : Finset (Fin n)}
    {child : Option (Fin n)} {x : Fin n} {rest : List (Fin n × Option (List (Fin n)))}
    {rp : List (Fin n)}
    (h : StackInv deps visited child ((x, none) :: rest) rp) :
    rp = [] ∧ ∀ e ∈ rest, e.2 = (none : Option (List (Fin n))) := by
  cases h with
  | base _ _ hnone =>
    exact ⟨rfl, fun e he => hnone e (List.mem_cons_of_mem _ he)⟩

lemma StackInv.inv_cons_some {n : ℕ} {deps : Fin n → List (Fin n)} {visited : Finset (Fin n)}
    {child : Option (Fin n)} {p : Fin n} {ds : List (Fin n)}
    {rest : List (Fin n × Option (List (Fin n)))} {rp : List (Fin n)}
    (h : StackInv deps visited child ((p, some ds) :: rest) rp) :
    ∃ rp0, rp = p :: rp0 ∧ (∀ d ∈ ds, d ∈ deps p) ∧
      (∀ d ∈ deps p, d ∈ ds ∨ d ∈ visited ∨ child = some d) ∧
      (∀ c, child = some c → c ∈ deps p) ∧
      StackInv deps visited (some p) rest rp0 := by
  cases h with
  | base _ _ hnone => exact absurd (hnone _ (List.mem_cons_self _ _)) (by simp)
  | step _ _ _ _ rp0 hds hcov hchild hrest => exact ⟨rp0, rfl, hds, hcov, hchild, hrest⟩

lemma StackInv.head_link {n : ℕ} {deps : Fin n → List (Fin n)} {visited : Finset (Fin n)}
    {c p : Fin n} {es : List (Fin n × Option (List (Fin n)))} {rp0 : List (Fin n)}
    (h : StackInv deps visited (some c) es (p :: rp0)) : c ∈ deps p := by
  cases h with
  | step _ _ _ _ _ _ _ hchild _ => exact hchild c rfl

lemma StackInv.chain {n : ℕ} {deps : Fin n → List (Fin n)} {visited : Finset (Fin n)}
    {child : Option (Fin n)} {es : List (Fin n × Option (List (Fin n)))} {rp : List (Fin n)}
    (h : StackInv deps visited child es rp) :
    List.Chain' (fun a b => a ∈ deps b) rp := by
  induction h with
  | base => exact List.chain'_nil
  | step child p ds rest rp hds hcov hchild hrest ih =>
    cases rp with
    | nil => simp
    | cons q rq =>
      exact List.chain'_cons.mpr ⟨hrest.head_link, ih⟩

lemma topoLoop_nil {n : ℕ} {deps : Fin n → List (Fin n)} {s : TopoState n}
    (h : s.stack = []) : topoLoop deps s = .ok s.sorted_nodes s.counts := by
  rw [topoLoop.eq_def]
  split
  · rfl
  · rename_i heq
    rw [h] at heq
    cases heq

lemma topoLoop_skip {n : ℕ} {deps : Fin n → List (Fin n)} {s : TopoState n}
    {node : Fin n} {rest : List (Fin n × Option (List (Fin n)))}
    (h : s.stack = (node, none) :: rest) (hv : node ∈ s.visited) :
    topoLoop deps s = topoLoop deps { s with stack := rest } := by
  rw [topoLoop.eq_def]
  split
  · rename_i heq
    rw [h] at heq
    cases heq
  · rename_i node' stOpt' rest' heq
    rw [h] at heq
    injection heq with h1 h2
    injection h1 with h3 h4
    subst h2
    subst h3
    subst h4
    simp [hv]

lemma topoLoop_err {n : ℕ} {deps : Fin n → List (Fin n)} {s : TopoState n}
    {node : Fin n} {rest : List (Fin n × Option (List (Fin n)))}
    (h : s.stack = (node, none) :: rest) (hv : node ∉ s.visited) (hv2 : node ∈ s.visiting) :
    topoLoop deps s = .cycleError (s.path ++ [node]) := by
  rw [topoLoop.eq_def]
  split
  · rename_i heq
    rw [h] at heq
    cases heq
  · rename_i node' stOpt' rest' heq
    rw [h] at heq
    injection heq with h1 h2
    injection h1 with h3 h4
    subst h2
    subst h3
    subst h4
    simp [hv, hv2]

lemma topoLoop_fresh {n : ℕ} {deps : Fin n → List (Fin n)} {s : TopoState n}
    {node : Fin n} {rest : List (Fin n × Option (List (Fin n)))}
    (h : s.stack = (node, none) :: rest) (hv : node ∉ s.visited) (hv2 : node ∉ s.visiting) :
    topoLoop deps s = topoLoop deps
      { stack := (node, some (deps node).dedup) :: rest
        visited := s.visited
        visiting := insert node s.visiting
        sorted_nodes := s.sorted_nodes
        path := s.path ++ [node]
        counts := s.counts + ((deps node).dedup : Multiset (Fin n)) } := by
  rw [topoLoop.eq_def]
  split
  · rename_i heq
    rw [h] at heq
    cases heq
  · rename_i node' stOpt' rest' heq
    rw [h] at heq
    injection heq with h1 h2
    injection h1 with h3 h4
    subst h2
    subst h3
    subst h4
    simp [hv, hv2]

lemma topoLoop_finish {n : ℕ} {deps : Fin n → List (Fin n)} {s : TopoState n}
    {node : Fin n} {rest : List (Fin n × Option (List (Fin n)))}
    (h : s.stack = (node, some []) :: rest) :
    topoLoop deps s = topoLoop deps
      { stack := rest
        visited := insert node s.visited
        visiting := s.visiting.erase node
        sorted_nodes := s.sorted_nodes ++ [node]
        path := s.path.dropLast
        counts := s.counts } := by
  rw [topoLoop.eq_def]
  split
  · rename_i heq
    rw [h] at heq
    cases heq
  · rename_i node' stOpt' rest' heq
    rw [h] at heq
    injection heq with h1 h2
    injection h1 with h3 h4
    subst h2
    subst h3
    subst h4
    rfl

lemma topoLoop_dep {n : ℕ} {deps : Fin n → List (Fin n)} {s : TopoState n}
    {node d : Fin n} {ds2 : List (Fin n)} {rest : List (Fin n × Option (List (Fin n)))}
    (h : s.stack = (node, some (d :: ds2)) :: rest) :
    topoLoop deps s = topoLoop deps
      { s with stack := (d, none) :: (node, some ds2) :: rest } := by
  rw [topoLoop.eq_def]
  split
  · rename_i heq
    rw [h] at heq
    cases heq
  · rename_i node' stOpt' rest' heq
    rw [h] at heq
    injection heq with h1 h2
    injection h1 with h3 h4
    subst h2
    subst h3
    subst h4
    rfl

lemma inv_skip {n : ℕ} {deps : Fin n → List (Fin n)} {targets : List (Fin n)}
    {s : TopoState n} {node : Fin n} {rest : List (Fin n × Option (List (Fin n)))}
    (hI : TopoInv deps targets s) (h : s.stack = (node, none) :: rest)
    (hv : node ∈ s.visited) :
    TopoInv deps targets { s with stack := rest } := by
  obtain ⟨shape, vis_path, path_nodup, disj, sorted_nodup, vis_sorted, order, reach, tcov, cnt⟩ := hI
  refine ⟨?_, vis_path, path_nodup, disj, sorted_nodup, vis_sorted, order, ?_, ?_, cnt⟩
  · -- shape
    rcases shape with hsi | ⟨d, rest', hdr, hsi⟩
    · rw [h] at hsi
      obtain ⟨hrp, hnone⟩ := hsi.inv_cons_none
      exact Or.inl (by rw [hrp]; exact .base none rest hnone)
    · rw [h] at hdr
      injection hdr with h1 h2
      injection h1 with h3 h4
      subst h3
      subst h2
      exact Or.inl (hsi.weaken (le_refl _) (Or.inr ⟨rfl, fun c hc => by
        injection hc with hc1
        exact hc1 ▸ hv⟩))
  · -- reach
    intro x hx
    apply reach
    rcases hx with ⟨e, he, hex⟩ | hx | hx
    · exact Or.inl ⟨e, by rw [h]; exact List.mem_cons_of_mem _ he, hex⟩
    · exact Or.inr (Or.inl hx)
    · exact Or.inr (Or.inr hx)
  · -- tcov
    intro t ht
    rcases tcov t ht with ⟨e, he, het⟩ | ht' | ht'
    · rw [h] at he
      rcases List.mem_cons.mp he with rfl | he
      · exact Or.inr (Or.inr (het ▸ hv))
      · exact Or.inl ⟨e, he, het⟩
    · exact Or.inr (Or.inl ht')
    · exact Or.inr (Or.inr ht')

lemma inv_dep {n : ℕ} {deps : Fin n → List (Fin n)} {targets : List (Fin n)}
    {s : TopoState n} {node d : Fin n} {ds2 : List (Fin n)}
    {rest : List (Fin n × Option (List (Fin n)))}
    (hI : TopoInv deps targets s) (h : s.stack = (node, some (d :: ds2)) :: rest) :
    TopoInv deps targets { s with stack := (d, none) :: (node, some ds2) :: rest } := by
  obtain ⟨shape, vis_path, path_nodup, disj, sorted_nodup, vis_sorted, order, reach, tcov, cnt⟩ := hI
  have hsi : StackInv deps s.visited none ((node, some (d :: ds2)) :: rest) s.path.reverse := by
    rcases shape with hsi | ⟨d', rest', hdr, _⟩
    · rwa [h] at hsi
    · rw [h] at hdr
      cases hdr
  obtain ⟨rp0, hrp, hds, hcov, _, hrest⟩ := hsi.inv_cons_some
  have hdmem : d ∈ deps node := hds d (List.mem_cons_self _ _)
  have hnodeReach : ReachT deps targets node := by
    apply reach
    exact Or.inl ⟨(node, some (d :: ds2)), by rw [h]; exact List.mem_cons_self _ _, rfl⟩
  refine ⟨?_, vis_path, path_nodup, disj, sorted_nodup, vis_sorted, order, ?_, ?_, cnt⟩
  · -- shape: form (b), active entry (d, none)
    refine Or.inr ⟨d, (node, some ds2) :: rest, rfl, ?_⟩
    rw [hrp]
    refine .step (some d) node ds2 rest rp0
      (fun x hx => hds x (List.mem_cons_of_mem _ hx)) ?_ ?_ hrest
    · intro x hx
      rcases hcov x hx with h1 | h1 | h1
      · rcases List.mem_cons.mp h1 with rfl | h1
        · exact Or.inr (Or.inr rfl)
        · exact Or.inl h1
      · exact Or.inr (Or.inl h1)
      · cases h1
    · intro c hc
      injection hc with hc1
      exact hc1 ▸ hdmem
  · -- reach
    intro x hx
    rcases hx with ⟨e, he, hex⟩ | hx | hx
    · rcases List.mem_cons.mp he with rfl | he
      · exact hex ▸ hnodeReach.imp (fun t ⟨ht, hr⟩ => ⟨ht, hr.tail hdmem⟩)
      · rcases List.mem_cons.mp he with rfl | he
        · apply reach
          exact Or.inl ⟨(node, some (d :: ds2)), by rw [h]; exact List.mem_cons_self _ _, hex⟩
        · apply reach
          exact Or.inl ⟨e, by rw [h]; exact List.mem_cons_of_mem _ he, hex⟩
    · exact reach x (Or.inr (Or.inl hx))
    · exact reach x (Or.inr (Or.inr hx))
  · -- tcov
    intro t ht
    rcases tcov t ht with ⟨e, he, het⟩ | ht' | ht'
    · rw [h] at he
      rcases List.mem_cons.mp he with rfl | he
      · exact Or.inl ⟨(node, some ds2), by simp, het⟩
      · exact Or.inl ⟨e, by simp [he], het⟩
    · exact Or.inr (Or.inl ht')
    · exact Or.inr (Or.inr ht')

lemma inv_fresh {n : ℕ} {deps : Fin n → List (Fin n)} {targets : List (Fin n)}
    {s : TopoState n} {node : Fin n} {rest : List (Fin n × Option (List (Fin n)))}
    (hI : TopoInv deps targets s) (h : s.stack = (node, none) :: rest)
    (hv : node ∉ s.visited) (hv2 : node ∉ s.visiting) :
    TopoInv deps targets
      { stack := (node, some (deps node).dedup) :: rest
        visited := s.visited
        visiting := insert node s.visiting
        sorted_nodes := s.sorted_nodes
        path := s.path ++ [node]
        counts := s.counts + ((deps node).dedup : Multiset (Fin n)) } := by
  obtain ⟨shape, vis_path, path_nodup, disj, sorted_nodup, vis_sorted, order, reach, tcov, cnt⟩ := hI
  have hnp : node ∉ s.path := fun hmem => hv2 (by rw [vis_path]; exact List.mem_toFinset.mpr hmem)
  refine ⟨?_, ?_, ?_, ?_, sorted_nodup, vis_sorted, order, ?_, ?_, ?_⟩
  · -- shape
    left
    show StackInv deps s.visited none _ (s.path ++ [node]).reverse
    rw [List.reverse_append, List.reverse_singleton, List.singleton_append]
    rcases shape with hsi | ⟨d', rest', hdr, hsi⟩
    · rw [h] at hsi
      obtain ⟨hrp, hnone⟩ := hsi.inv_cons_none
      rw [hrp]
      exact .step none node (deps node).dedup rest []
        (fun d hd => List.mem_dedup.mp hd)
        (fun d hd => Or.inl (List.mem_dedup.mpr hd))
        (fun c hc => by cases hc)
        (.base (some node) rest hnone)
    · rw [h] at hdr
      injection hdr with h1 h2
      injection h1 with h3 h4
      subst h3
      subst h2
      exact .step none node (deps node).dedup rest s.path.reverse
        (fun d hd => List.mem_dedup.mp hd)
        (fun d hd => Or.inl (List.mem_dedup.mpr hd))
        (fun c hc => by cases hc)
        hsi
  · -- vis_path
    ext x
    simp [vis_path, or_comm]
  · -- path_nodup
    simp [List.nodup_append, path_nodup, hnp]
  · -- disj
    intro x hx
    simp only [Finset.mem_insert, not_or]
    exact ⟨fun hxn => hv (hxn ▸ hx), disj x hx⟩
  · -- reach
    intro x hx
    rcases hx with ⟨e, he, hex⟩ | hx | hx
    · rcases List.mem_cons.mp he with rfl | he
      · exact reach x (Or.inl ⟨(node, none), by rw [h]; exact List.mem_cons_self _ _, hex⟩)
      · exact reach x (Or.inl ⟨e, by rw [h]; exact List.mem_cons_of_mem _ he, hex⟩)
    · rcases Finset.mem_insert.mp hx with hxn | hx
      · subst hxn
        exact reach x (Or.inl ⟨(x, none), by rw [h]; exact List.mem_cons_self _ _, rfl⟩)
      · exact reach x (Or.inr (Or.inl hx))
    · exact reach x (Or.inr (Or.inr hx))
  · -- tcov
    intro t ht
    rcases tcov t ht with ⟨e, he, het⟩ | ht' | ht'
    · rw [h] at he
      rcases List.mem_cons.mp he with rfl | he
      · exact Or.inl ⟨(node, some (deps node).dedup), List.mem_cons_self _ _, het⟩
      · exact Or.inl ⟨e, List.mem_cons_of_mem _ he, het⟩
    · exact Or.inr (Or.inl (Finset.mem_insert_of_mem ht'))
    · exact Or.inr (Or.inr ht')
  · -- cnt
    simp only [cnt, List.map_append, List.sum_append, List.map_cons, List.sum_cons,
      List.map_nil, List.sum_nil]
    abel

lemma inv_finish {n : ℕ} {deps : Fin n → List (Fin n)} {targets : List (Fin n)}
    {s : TopoState n} {node : Fin n} {rest : List (Fin n × Option (List (Fin n)))}
    (hI : TopoInv deps targets s) (h : s.stack = (node, some []) :: rest) :
    TopoInv deps targets
      { stack := rest
        visited := insert node s.visited
        visiting := s.visiting.erase node
        sorted_nodes := s.sorted_nodes ++ [node]
        path := s.path.dropLast
        counts := s.counts } := by
  obtain ⟨shape, vis_path, path_nodup, disj, sorted_nodup, vis_sorted, order, reach, tcov, cnt⟩ := hI
  have hsi : StackInv deps s.visited none ((node, some []) :: rest) s.path.reverse := by
    rcases shape with hsi | ⟨d', rest', hdr, _⟩
    · rwa [h] at hsi
    · rw [h] at hdr
      cases hdr
  obtain ⟨rp0, hrp, _, hcov, _, hrest⟩ := hsi.inv_cons_some
  have hpath : s.path = rp0.reverse ++ [node] := by
    have := congrArg List.reverse hrp
    simpa using this
  have hdrop : s.path.dropLast = rp0.reverse := by
    rw [hpath, List.dropLast_concat]
  have hnode_rp : node ∉ rp0.reverse := by
    have hnd := path_nodup
    rw [hpath] at hnd
    intro hmem
    exact (List.nodup_append.mp hnd).2.2 hmem (by simp)
  have hnode_vis : node ∈ s.visiting := by
    rw [vis_path, hpath]
    simp
  have hdeps_vis : ∀ b ∈ deps node, b ∈ s.visited := by
    intro b hb
    rcases hcov b hb with h1 | h1 | h1
    · cases h1
    · exact h1
    · cases h1
  have hnode_sorted : node ∉ s.sorted_nodes := by
    intro hmem
    exact disj node (by rw [vis_sorted]; exact List.mem_toFinset.mpr hmem) hnode_vis
  refine ⟨?_, ?_, ?_, ?_, ?_, ?_, ?_, ?_, ?_, ?_⟩
  · -- shape
    left
    show StackInv deps (insert node s.visited) none rest (s.path.dropLast).reverse
    rw [hdrop, List.reverse_reverse]
    exact hrest.weaken (Finset.subset_insert _ _)
      (Or.inr ⟨rfl, fun c hc => by
        injection hc with hc1
        exact hc1 ▸ Finset.mem_insert_self _ _⟩)
  · -- vis_path
    rw [hdrop]
    ext x
    simp only [Finset.mem_erase, vis_path, List.mem_toFinset, hpath, List.mem_append,
      List.mem_singleton]
    constructor
    · rintro ⟨hxn, hx | rfl⟩
      · exact hx
      · exact absurd rfl hxn
    · intro hx
      exact ⟨fun hxn => hnode_rp (hxn ▸ hx), Or.inl hx⟩
  · -- path_nodup
    rw [hdrop]
    have := path_nodup
    rw [hpath] at this
    exact (List.nodup_append.mp this).1
  · -- disj
    intro x hx
    rcases Finset.mem_insert.mp hx with rfl | hx
    · exact Finset.not_mem_erase _ _
    · exact fun hmem => disj x hx (Finset.mem_of_mem_erase hmem)
  · -- sorted_nodup
    simp [List.nodup_append, sorted_nodup, hnode_sorted]
  · -- vis_sorted
    ext x
    simp [vis_sorted, or_comm]
  · -- order
    intro a ha b hb
    rcases List.mem_append.mp ha with ha' | ha'
    · obtain ⟨hbmem, hidx⟩ := order a ha' b hb
      refine ⟨List.mem_append_left _ hbmem, ?_⟩
      rw [List.indexOf_append_of_mem hbmem, List.indexOf_append_of_mem ha']
      exact hidx
    · have ha2 : a = node := by simpa using ha'
      subst ha2
      have hbv : b ∈ s.sorted_nodes := by
        rw [vis_sorted] at hdeps_vis
        exact List.mem_toFinset.mp (hdeps_vis b hb)
      refine ⟨List.mem_append_left _ hbv, ?_⟩
      rw [List.indexOf_append_of_mem hbv, List.indexOf_append_of_not_mem hnode_sorted]
      simp only [List.indexOf_cons_self, Nat.add_zero]
      exact List.indexOf_lt_length.mpr hbv
  · -- reach
    intro x hx
    rcases hx with ⟨e, he, hex⟩ | hx | hx
    · exact reach x (Or.inl ⟨e, by rw [h]; exact List.mem_cons_of_mem _ he, hex⟩)
    · exact reach x (Or.inr (Or.inl (Finset.mem_of_mem_erase hx)))
    · rcases Finset.mem_insert.mp hx with rfl | hx
      · exact reach x (Or.inr (Or.inl hnode_vis))
      · exact reach x (Or.inr (Or.inr hx))
  · -- tcov
    intro t ht
    rcases tcov t ht with ⟨e, he, het⟩ | ht' | ht'
    · rw [h] at he
      rcases List.mem_cons.mp he with rfl | he
      · exact Or.inr (Or.inr (het ▸ Finset.mem_insert_self _ _))
      · exact Or.inl ⟨e, he, het⟩
    · by_cases htn : t = node
      · exact Or.inr (Or.inr (htn ▸ Finset.mem_insert_self _ _))
      · exact Or.inr (Or.inl (Finset.mem_erase.mpr ⟨htn, ht'⟩))
    · exact Or.inr (Or.inr (Finset.mem_insert_of_mem ht'))
  · -- cnt
    rw [cnt, hdrop, hpath]
    simp only [List.map_append, List.sum_append, List.map_cons, List.sum_cons,
      List.map_nil, List.sum_nil]
    abel

lemma chain'_transGen_of_getLast {α : Type*} {R : α → α → Prop} :
    ∀ (l : List α) (x y : α), List.Chain' R (x :: l) → l.getLast? = some y →
      Relation.TransGen R x y := by
  intro l
  induction l with
  | nil => intro x y _ hlast; cases hlast
  | cons a l ih =>
    intro x y hchain hlast
    have hR : R x a := (List.chain'_cons.mp hchain).1
    have hchain2 : List.Chain' R (a :: l) := (List.chain'_cons.mp hchain).2
    cases l with
    | nil =>
      have hya : a = y := by simpa using hlast
      exact hya ▸ Relation.TransGen.single hR
    | cons b l2 =>
      have hlast2 : (b :: l2).getLast? = some y := by
        rwa [List.getLast?_cons_cons] at hlast
      exact (ih a y hchain2 hlast2).head hR

lemma err_names_cycle {n : ℕ} {deps : Fin n → List (Fin n)} {targets : List (Fin n)}
    {s : TopoState n} {node : Fin n} {rest : List (Fin n × Option (List (Fin n)))}
    (hI : TopoInv deps targets s) (h : s.stack = (node, none) :: rest)
    (hv2 : node ∈ s.visiting) :
    NamesCycle deps (s.path ++ [node]) ∧ HasReachableCycle deps targets := by
  obtain ⟨shape, vis_path, path_nodup, disj, sorted_nodup, vis_sorted, order, reach, tcov, cnt⟩ := hI
  have hnode_path : node ∈ s.path := by
    rw [vis_path] at hv2
    exact List.mem_toFinset.mp hv2
  have hsi : StackInv deps s.visited (some node) rest s.path.reverse := by
    rcases shape with hsi | ⟨d', rest', hdr, hsi⟩
    · rw [h] at hsi
      obtain ⟨hrp, _⟩ := hsi.inv_cons_none
      have : s.path = [] := by simpa using congrArg List.reverse hrp
      rw [this] at hnode_path
      cases hnode_path
    · rw [h] at hdr
      injection hdr with h1 h2
      injection h1 with h3 h4
      subst h3
      subst h2
      exact hsi
  -- the reverse of the path is nonempty and its head is the path's last element
  obtain ⟨ptop, rq, hrq⟩ : ∃ ptop rq, s.path.reverse = ptop :: rq := by
    cases hrev : s.path.reverse with
    | nil =>
      have : s.path = [] := by simpa using congrArg List.reverse hrev
      rw [this] at hnode_path
      cases hnode_path
    | cons a l => exact ⟨a, l, rfl⟩
  have hlink : node ∈ deps ptop := by
    rw [hrq] at hsi
    exact hsi.head_link
  have hchain_path : List.Chain' (fun a b => b ∈ deps a) s.path := by
    have hc := hsi.chain
    exact List.chain'_reverse.mp hc
  have hlast : s.path.getLast? = some ptop := by
    rw [← List.head?_reverse, hrq]
    rfl
  have hchain : List.Chain' (fun a b => b ∈ deps a) (s.path ++ [node]) := by
    apply List.Chain'.append hchain_path (List.chain'_singleton _)
    intro x hx y hy
    simp only [List.head?_cons, Option.mem_def, Option.some.injEq] at hy
    rw [hlast] at hx
    simp only [Option.mem_def, Option.some.injEq] at hx
    subst hx
    subst hy
    exact hlink
  refine ⟨⟨⟨s.path, node, rfl, hnode_path⟩, hchain⟩, node, reach node (Or.inr (Or.inl hv2)), ?_⟩
  -- extract the cycle: the chain from the earlier occurrence of node back to node
  obtain ⟨u, v, huv⟩ := List.append_of_mem hnode_path
  have hsuffix : (node :: (v ++ [node])) <:+ (s.path ++ [node]) := by
    rw [huv]
    exact ⟨u, by simp⟩
  have hchain2 : List.Chain' (fun a b => b ∈ deps a) (node :: (v ++ [node])) :=
    hchain.suffix hsuffix
  have hlast2 : (v ++ [node]).getLast? = some node := by
    simp
  exact chain'_transGen_of_getLast _ _ _ hchain2 hlast2

/-- Specification of a valid topological order: no duplicates, and every
direct dependency of a listed node occurs earlier in the list. -/
def SortedSpec {n : ℕ} (deps : Fin n → List (Fin n)) (l : List (Fin n)) : Prop :=
  l.Nodup ∧ ∀ a ∈ l, ∀ b ∈ deps a, b ∈ l ∧ l.indexOf b < l.indexOf a

/-- Postcondition of the loop, relative to the state it starts from. -/
def TopoPost {n : ℕ} (deps : Fin n → List (Fin n)) (targets : List (Fin n))
    (s : TopoState n) (r : TopoResult n) : Prop :=
  (∀ p, r = .cycleError p → NamesCycle deps p ∧ HasReachableCycle deps targets) ∧
  (∀ l cnt, r = .ok l cnt →
    s.sorted_nodes <+: l ∧ SortedSpec deps l ∧
    (∀ x, ((∃ e ∈ s.stack, e.1 = x) ∨ x ∈ s.visiting ∨ x ∈ s.visited) → x ∈ l) ∧
    (∀ x ∈ l, ReachT deps targets x) ∧
    cnt = (l.map (fun x => ((deps x).dedup : Multiset (Fin n)))).sum)

lemma TopoPost.mono {n : ℕ} {deps : Fin n → List (Fin n)} {targets : List (Fin n)}
    {s s' : TopoState n} {r : TopoResult n}
    (h : TopoPost deps targets s' r)
    (hsorted : s.sorted_nodes <+: s'.sorted_nodes)
    (hcov : ∀ x, ((∃ e ∈ s.stack, e.1 = x) ∨ x ∈ s.visiting ∨ x ∈ s.visited) →
      ((∃ e ∈ s'.stack, e.1 = x) ∨ x ∈ s'.visiting ∨ x ∈ s'.visited)) :
    TopoPost deps targets s r := by
  refine ⟨h.1, fun l cnt heq => ?_⟩
  obtain ⟨hpre, hspec, hcov', hreach, hcnt⟩ := h.2 l cnt heq
  exact ⟨hsorted.trans hpre, hspec, fun x hx => hcov' x (hcov x hx), hreach, hcnt⟩

theorem topoLoop_post {n : ℕ} (deps : Fin n → List (Fin n)) (targets : List (Fin n)) :
    ∀ s : TopoState n, TopoInv deps targets s → TopoPost deps targets s (topoLoop deps s) := by
  intro s
  induction s using topoLoop.induct (d := deps) with
  | case1 s hstack =>
    intro hI
    obtain ⟨shape, vis_path, path_nodup, disj, sorted_nodup, vis_sorted, order, reach,
      tcov, cnt⟩ := hI
    have hpath : s.path = [] := by
      rcases shape with hsi | ⟨d', rest', hdr, _⟩
      · rw [hstack] at hsi
        have := hsi.inv_nil
        simpa using congrArg List.reverse this
      · rw [hstack] at hdr
        cases hdr
    have hvisiting : s.visiting = ∅ := by
      rw [vis_path, hpath]
      rfl
    constructor
    · intro p hp
      rw [topoLoop_nil hstack] at hp
      cases hp
    · intro l cntv heq
      rw [topoLoop_nil hstack] at heq
      injection heq with h1 h2
      subst h1
      subst h2
      refine ⟨List.prefix_rfl, ⟨sorted_nodup, order⟩, ?_, ?_, ?_⟩
      · intro x hx
        rcases hx with ⟨e, he, _⟩ | hx | hx
        · rw [hstack] at he
          cases he
        · rw [hvisiting] at hx
          cases hx
        · rw [vis_sorted] at hx
          exact List.mem_toFinset.mp hx
      · intro x hx
        exact reach x (Or.inr (Or.inr (by rw [vis_sorted]; exact List.mem_toFinset.mpr hx)))
      · rw [cnt, hpath, List.append_nil]
  | case2 s node rest hstack hv _ ih =>
    intro hI
    rw [topoLoop_skip hstack hv]
    refine (ih (inv_skip hI hstack hv)).mono List.prefix_rfl ?_
    intro x hx
    rcases hx with ⟨e, he, hex⟩ | hx | hx
    · rw [hstack] at he
      rcases List.mem_cons.mp he with rfl | he
      · exact Or.inr (Or.inr (hex ▸ hv))
      · exact Or.inl ⟨e, he, hex⟩
    · exact Or.inr (Or.inl hx)
    · exact Or.inr (Or.inr hx)
  | case3 s node rest hstack hv hv2 _ =>
    intro hI
    rw [topoLoop_err hstack hv hv2]
    constructor
    · intro p hp
      injection hp with h1
      subst h1
      exact err_names_cycle hI hstack hv2
    · intro l cntv heq
      cases heq
  | case4 s node rest hstack hv hv2 _ ih =>
    intro hI
    rw [topoLoop_fresh hstack hv hv2]
    refine (ih (inv_fresh hI hstack hv hv2)).mono List.prefix_rfl ?_
    intro x hx
    rcases hx with ⟨e, he, hex⟩ | hx | hx
    · rw [hstack] at he
      rcases List.mem_cons.mp he with rfl | he
      · exact Or.inl ⟨(node, some (deps node).dedup), List.mem_cons_self _ _, hex⟩
      · exact Or.inl ⟨e, List.mem_cons_of_mem _ he, hex⟩
    · exact Or.inr (Or.inl (Finset.mem_insert_of_mem hx))
    · exact Or.inr (Or.inr hx)
  | case5 s node rest hstack _ _ ih =>
    intro hI
    rw [topoLoop_finish hstack]
    refine (ih (inv_finish hI hstack)).mono ⟨[node], rfl⟩ ?_
    intro x hx
    rcases hx with ⟨e, he, hex⟩ | hx | hx
    · rw [hstack] at he
      rcases List.mem_cons.mp he with rfl | he
      · exact Or.inr (Or.inr (hex ▸ Finset.mem_insert_self _ _))
      · exact Or.inl ⟨e, he, hex⟩
    · by_cases hxn : x = node
      · exact Or.inr (Or.inr (hxn ▸ Finset.mem_insert_self _ _))
      · exact Or.inr (Or.inl (Finset.mem_erase.mpr ⟨hxn, hx⟩))
    · exact Or.inr (Or.inr (Finset.mem_insert_of_mem hx))
  | case6 s node rest d ds2 hstack _ _ ih =>
    intro hI
    rw [topoLoop_dep hstack]
    refine (ih (inv_dep hI hstack)).mono List.prefix_rfl ?_
    intro x hx
    rcases hx with ⟨e, he, hex⟩ | hx | hx
    · rw [hstack] at he
      rcases List.mem_cons.mp he with rfl | he
      · exact Or.inl ⟨(node, some ds2), by simp, hex⟩
      · exact Or.inl ⟨e, by simp [he], hex⟩
    · exact Or.inr (Or.inl hx)
    · exact Or.inr (Or.inr hx)

lemma topoInv_init {n : ℕ} (deps : Fin n → List (Fin n)) (targets : List (Fin n)) :
    TopoInv deps targets ⟨targets.map (fun t => (t, none)), ∅, ∅, [], [], 0⟩ := by
  refine ⟨Or.inl (.base none _ ?_), rfl, List.nodup_nil, ?_, List.nodup_nil, rfl, ?_, ?_, ?_, rfl⟩
  · intro e he
    obtain ⟨t, _, rfl⟩ := List.mem_map.mp he
    rfl
  · intro x hx
    cases hx
  · intro a ha
    cases ha
  · intro x hx
    rcases hx with ⟨e, he, hex⟩ | hx | hx
    · obtain ⟨t, ht, rfl⟩ := List.mem_map.mp he
      exact ⟨t, ht, hex ▸ Relation.ReflTransGen.refl⟩
    · cases hx
    · cases hx
  · intro t ht
    exact Or.inl ⟨(t, none), List.mem_map.mpr ⟨t, ht, rfl⟩, rfl⟩

/-- C1: if the dependency graph reachable from the targets is acyclic,
`topological_sort` returns a list containing each reachable node exactly once,
in which every transitive dependency of a node appears before that node; if a
cycle is reachable from the targets, it instead raises a circular-dependency
error naming the nodes of the cycle. -/
theorem C1_topological_sort_spec {n : ℕ} (deps : Fin n → List (Fin n))
    (targets : List (Fin n)) :
    (¬ HasReachableCycle deps targets →
      ∃ l cnt, topological_sort deps targets = .ok l cnt ∧ l.Nodup ∧
        (∀ x, x ∈ l ↔ ReachT deps targets x) ∧
        (∀ a b, a ∈ l → Relation.TransGen (depEdge deps) a b →
          b ∈ l ∧ l.indexOf b < l.indexOf a)) ∧
    (HasReachableCycle deps targets →
      ∃ p, topological_sort deps targets = .cycleError p ∧ NamesCycle deps p) := by
  have hpost := topoLoop_post deps targets _ (topoInv_init deps targets)
  cases hr : topological_sort deps targets with
  | ok l cnt =>
    obtain ⟨hpre, ⟨hnd, horder⟩, hcov, hreach, hcnt⟩ := hpost.2 l cnt hr
    have hmem : ∀ x, ReachT deps targets x → x ∈ l := by
      rintro x ⟨t, ht, hrt⟩
      induction hrt with
      | refl => exact hcov t (Or.inl ⟨(t, none), List.mem_map.mpr ⟨t, ht, rfl⟩, rfl⟩)
      | tail _ hedge ih => exact (horder _ ih _ hedge).1
    have htrans : ∀ a b, a ∈ l → Relation.TransGen (depEdge deps) a b →
        b ∈ l ∧ l.indexOf b < l.indexOf a := by
      intro a b ha hab
      induction hab with
      | single hedge => exact horder a ha _ hedge
      | tail _ hedge ih =>
        obtain ⟨hb', hidx'⟩ := ih
        obtain ⟨hb, hidx⟩ := horder _ hb' _ hedge
        exact ⟨hb, hidx.trans hidx'⟩
    constructor
    · intro _
      exact ⟨l, cnt, rfl, hnd, fun x => ⟨hreach x, hmem x⟩, htrans⟩
    · rintro ⟨c, hrc, hcyc⟩
      have hc : c ∈ l := hmem c hrc
      have := (htrans c c hc hcyc).2
      exact absurd this (lt_irrefl _)
  | cycleError p =>
    obtain ⟨hnames, hcyc⟩ := hpost.1 p hr
    constructor
    · intro hacyc
      exact absurd hcyc hacyc
    · intro _
      exact ⟨p, rfl, hnames⟩

/-- A concrete acyclic two-node dependency graph: node 0 depends on node 1. -/
def depsPair : Fin 2 → List (Fin 2) := fun i => if i = 0 then [1] else []

/-- Witness for C1 at a concrete input: the acyclic branch applied to the
two-node graph, where the reachable set is everything and 1 precedes 0. -/
theorem C1_topological_sort_spec_witness :
    ∃ l cnt, topological_sort depsPair [0] = .ok l cnt ∧ l.Nodup ∧
      (∀ x, x ∈ l ↔ ReachT depsPair [0] x) ∧
      (∀ a b, a ∈ l → Relation.TransGen (depEdge depsPair) a b →
        b ∈ l ∧ l.indexOf b < l.indexOf a) := by
  apply (C1_topological_sort_spec depsPair [0]).1
  rintro ⟨c, _, hcyc⟩
  have hedge_char : ∀ a b : Fin 2, depEdge depsPair a b → a = 0 ∧ b = 1 := by
    simp only [depEdge, depsPair]
    decide
  have hshape : ∀ a b : Fin 2, Relation.TransGen (depEdge depsPair) a b → a = 0 ∧ b = 1 := by
    intro a b hab
    induction hab with
    | single hedge => exact hedge_char _ _ hedge
    | tail _ hedge ih =>
      have h2 := hedge_char _ _ hedge
      rw [ih.2] at h2
      exact absurd h2.1 (by decide)
  obtain ⟨h0, h1⟩ := hshape c c hcyc
  rw [h0] at h1
  cases h1

/-!
§ Runner release bookkeeping — embedding of the node loop of `Runner.run`
(src/yape/grun.py lines 69–80):

```
for node in nodes_to_run:
    if not node._must_run():
        continue
    ... resolve and run the node, store its result ...
    for dep in node._get_dep_nodes():
        dependant_counts[dep] -= 1
        if not dependant_counts[dep] and dep not in target_nodes:
            nodestate.get_state(dep).release()
```

`yields x` models the sequence produced by `x._get_dep_nodes()` (with
multiplicity, in yield order); `mustRun` models `node._must_run()`; the
`Counter` is modelled as `Fin n → ℤ` (Python `Counter` values go negative).
The execution of a node (resolve/run/set_result) has no effect on this
bookkeeping and is represented by the node's block in the output; the
releases recorded in a block happen right after that node executes.
-/

/-- The inner `for dep in node._get_dep_nodes():` loop: decrement the counter,
and record a release when it hits zero for a non-target. -/
def releaseLoop {n : ℕ} (targets : Finset (Fin n)) (ys : List (Fin n)) (c : Fin n → ℤ) :
    (Fin n → ℤ) × List (Fin n) :=
  match ys with
  | [] => (c, [])
  | dep :: rest =>
    let c1 := Function.update c dep (c dep - 1)
    let first : List (Fin n) := if c1 dep = 0 ∧ dep ∉ targets then [dep] else []
    let r := releaseLoop targets rest c1
    (r.1, first ++ r.2)

/-- The outer `for node in nodes_to_run:` loop.  Returns the list of executed
nodes, each paired with the releases performed during its bookkeeping, plus
the final counter. -/
def runNodes {n : ℕ} (mustRun : Fin n → Bool) (yields : Fin n → List (Fin n))
    (targets : Finset (Fin n)) :
    List (Fin n) → (Fin n → ℤ) → List (Fin n × List (Fin n)) × (Fin n → ℤ)
  | [], c => ([], c)
  | x :: rest, c =>
    if mustRun x then
      let r1 := releaseLoop targets (yields x) c
      let r2 := runNodes mustRun yields targets rest r1.1
      ((x, r1.2) :: r2.1, r2.2)
    else
      runNodes mustRun yields targets rest c

/-- No dependency is released while a dependant that executes later still
needs it: whatever is released during block `i` is not yielded as a
dependency by any block executed after `i`. -/
def NoPrematureRelease {n : ℕ} (yields : Fin n → List (Fin n))
    (blocks : List (Fin n × List (Fin n))) : Prop :=
  ∀ i j bi bj, blocks.get? i = some bi → blocks.get? j = some bj → i < j →
    ∀ d ∈ bi.2, d ∉ yields bj.1

/-- Number of nodes in `l` that yield `d` as a dependency. -/
def countDeps {n : ℕ} (yields : Fin n → List (Fin n)) (l : List (Fin n)) (d : Fin n) : ℤ :=
  ((l.filter (fun x => decide (d ∈ yields x))).length : ℤ)

/-- The intended release discipline: during the bookkeeping of node `x`, a
dependency `d` is released exactly when `d` is not a target, `x` yields `d`,
and no node executed after `x` yields `d` (so `x` is the last dependant). -/
def runSpec {n : ℕ} (yields : Fin n → List (Fin n)) (targets : Finset (Fin n)) :
    List (Fin n) → List (Fin n × List (Fin n))
  | [] => []
  | x :: rest =>
    (x, (yields x).filter
      (fun d => decide (d ∉ targets) && decide (∀ y ∈ rest, d ∉ yields y))) ::
    runSpec yields targets rest

lemma releaseLoop_eq {n : ℕ} (targets : Finset (Fin n)) :
    ∀ (ys : List (Fin n)) (c : Fin n → ℤ), ys.Nodup →
    (releaseLoop targets ys c).2
        = ys.filter (fun d => decide (c d - 1 = 0 ∧ d ∉ targets)) ∧
    (∀ d, (releaseLoop targets ys c).1 d = if d ∈ ys then c d - 1 else c d) := by
  intro ys
  induction ys with
  | nil =>
    intro c _
    exact ⟨rfl, fun d => by simp [releaseLoop]⟩
  | cons dep rest ih =>
    intro c hnd
    have hdep_rest : dep ∉ rest := (List.nodup_cons.mp hnd).1
    have hrest_nd : rest.Nodup := (List.nodup_cons.mp hnd).2
    have hupd : ∀ d, Function.update c dep (c dep - 1) d = if d = dep then c d - 1 else c d := by
      intro d
      by_cases hd : d = dep
      · subst hd
        simp [Function.update_same]
      · rw [Function.update_noteq hd, if_neg hd]
    obtain ⟨ih1, ih2⟩ := ih (Function.update c dep (c dep - 1)) hrest_nd
    constructor
    · show (if Function.update c dep (c dep - 1) dep = 0 ∧ dep ∉ targets then [dep] else [])
          ++ (releaseLoop targets rest (Function.update c dep (c dep - 1))).2 = _
      rw [ih1, List.filter_cons]
      have hc1 : Function.update c dep (c dep - 1) dep = c dep - 1 := by
        simp [Function.update_same]
      have hfilter : rest.filter
            (fun d => decide (Function.update c dep (c dep - 1) d - 1 = 0 ∧ d ∉ targets))
          = rest.filter (fun d => decide (c d - 1 = 0 ∧ d ∉ targets)) := by
        apply List.filter_congr
        intro d hd
        have hne : d ≠ dep := fun h => hdep_rest (h ▸ hd)
        rw [hupd d, if_neg hne]
      rw [hfilter, hc1]
      by_cases hcond : c dep - 1 = 0 ∧ dep ∉ targets
      · rw [if_pos hcond]
        simp [hcond]
      · rw [if_neg hcond]
        simp [hcond]
    · intro d
      show (releaseLoop targets rest (Function.update c dep (c dep - 1))).1 d = _
      rw [ih2 d, hupd d]
      by_cases hd : d = dep
      · subst hd
        simp [hdep_rest]
      · by_cases hdr : d ∈ rest
        · simp [hdr, hd, List.mem_cons]
        · simp [hdr, hd, List.mem_cons]

lemma countDeps_cons {n : ℕ} (yields : Fin n → List (Fin n)) (x : Fin n)
    (rest : List (Fin n)) (d : Fin n) :
    countDeps yields (x :: rest) d
      = (if d ∈ yields x then 1 else 0) + countDeps yields rest d := by
  unfold countDeps
  rw [List.filter_cons]
  by_cases hd : d ∈ yields x
  · simp only [hd, decide_true_eq_true, if_pos, List.length_cons]
    push_cast
    ring
  · simp [hd]

lemma countDeps_nonneg {n : ℕ} (yields : Fin n → List (Fin n)) (l : List (Fin n)) (d : Fin n) :
    0 ≤ countDeps yields l d := by
  unfold countDeps
  positivity

lemma countDeps_eq_zero_iff {n : ℕ} (yields : Fin n → List (Fin n)) (l : List (Fin n))
    (d : Fin n) : countDeps yields l d = 0 ↔ ∀ y ∈ l, d ∉ yields y := by
  unfold countDeps
  rw [Int.natCast_eq_zero, List.length_eq_zero, List.filter_eq_nil_iff]
  simp

lemma runNodes_eq_runSpec {n : ℕ} (yields : Fin n → List (Fin n)) (targets : Finset (Fin n))
    (hny : ∀ x, (yields x).Nodup) :
    ∀ (l : List (Fin n)) (c : Fin n → ℤ), (∀ d, c d = countDeps yields l d) →
    (runNodes (fun _ => true) yields targets l c).1 = runSpec yields targets l := by
  intro l
  induction l with
  | nil => intro c _; rfl
  | cons x rest ih =>
    intro c hc
    obtain ⟨hrel, hcounter⟩ := releaseLoop_eq targets (yields x) c (hny x)
    show ((x, (releaseLoop targets (yields x) c).2) ::
        (runNodes (fun _ => true) yields targets rest (releaseLoop targets (yields x) c).1).1) = _
    have hnext : ∀ d, (releaseLoop targets (yields x) c).1 d = countDeps yields rest d := by
      intro d
      rw [hcounter d]
      by_cases hd : d ∈ yields x
      · rw [if_pos hd, hc d, countDeps_cons, if_pos hd]
        ring
      · rw [if_neg hd, hc d, countDeps_cons, if_neg hd]
        ring
    rw [ih _ hnext, hrel]
    show (x, _) :: _ = (x, _) :: _
    congr 1
    congr 1
    apply List.filter_congr
    intro d hd
    have hcd : c d - 1 = countDeps yields rest d := by
      rw [hc d, countDeps_cons, if_pos hd]
      ring
    rw [hcd, ← Bool.decide_and]
    apply decide_eq_decide.mpr
    rw [countDeps_eq_zero_iff]
    tauto

lemma runSpec_fst {n : ℕ} (yields : Fin n → List (Fin n)) (targets : Finset (Fin n)) :
    ∀ l : List (Fin n), (runSpec yields targets l).map Prod.fst = l := by
  intro l
  induction l with
  | nil => rfl
  | cons x rest ih => simp [runSpec, ih]

lemma runSpec_noPremature {n : ℕ} (yields : Fin n → List (Fin n)) (targets : Finset (Fin n)) :
    ∀ l : List (Fin n), NoPrematureRelease yields (runSpec yields targets l) := by
  intro l
  induction l with
  | nil =>
    intro i j bi bj hi _ _ d hd
    cases hi
  | cons x rest ih =>
    intro i j bi bj hi hj hij d hd
    cases j with
    | zero => cases hij
    | succ j' =>
      have hbj : (runSpec yields targets rest).get? j' = some bj := hj
      cases i with
      | zero =>
        have hbi : bi = (x, (yields x).filter
            (fun d => decide (d ∉ targets) && decide (∀ y ∈ rest, d ∉ yields y))) := by
          injection hi with h1
          exact h1.symm
        rw [hbi] at hd
        have hprop := List.of_mem_filter hd
        rw [Bool.and_eq_true, decide_eq_true_eq, decide_eq_true_eq] at hprop
        have hbj_mem : bj.1 ∈ rest := by
          rw [← runSpec_fst yields targets rest]
          exact List.mem_map.mpr ⟨bj, List.get?_mem hbj, rfl⟩
        exact hprop.2 bj.1 hbj_mem
      | succ i' =>
        exact ih i' j' bi bj hi hbj (Nat.succ_lt_succ_iff.mp hij) d hd

lemma count_of_topo_counts {n : ℕ} (yields : Fin n → List (Fin n)) :
    ∀ (l : List (Fin n)) (d : Fin n),
    ((l.map (fun x => ((yields x).dedup : Multiset (Fin n)))).sum.count d : ℤ)
      = countDeps yields l d := by
  intro l d
  induction l with
  | nil => simp [countDeps]
  | cons x rest ih =>
    rw [List.map_cons, List.sum_cons, Multiset.count_add, countDeps_cons, ← ih]
    push_cast
    congr 1
    rw [Multiset.coe_count]
    by_cases hd : d ∈ yields x
    · rw [if_pos hd]
      norm_cast
      exact List.count_eq_one_of_mem (yields x).nodup_dedup (List.mem_dedup.mpr hd)
    · rw [if_neg hd]
      norm_cast
      exact List.count_eq_zero_of_not_mem (fun hmem => hd (List.mem_dedup.mp hmem))

/-- A dependant that yields the same dependency twice: node 1 yields node 0
twice (as `_get_dep_nodes()` can, e.g. via a direct node reference plus a
`PathIn` whose producer is that same node), node 2 yields node 0 once. -/
def yieldsDup : Fin 3 → List (Fin 3) :=
  fun i => if i = 1 then [0, 0] else if i = 2 then [0] else []

/-- Counterexample to C3 as stated: running the pipeline on targets `{1, 2}`
(both dependants of 0), the topological sort counts one deduplicated edge per
dependant (count 2 for node 0), but the runner decrements once per *yielded*
dependency, so node 1's two yields drive the counter to zero and release
node 0's state while dependant 2 has not yet executed. -/
theorem C3_counterexample :
    topological_sort yieldsDup [1, 2] = .ok [0, 1, 2] {0, 0} ∧
    ¬ NoPrematureRelease yieldsDup
      (runNodes (fun _ => true) yieldsDup ({1, 2} : Finset (Fin 3)) [0, 1, 2]
        (fun d => (({0, 0} : Multiset (Fin 3)).count d : ℤ))).1 := by
  constructor
  · simp [topological_sort, topoLoop.eq_def, yieldsDup]
  · intro h
    have hblocks : (runNodes (fun _ => true) yieldsDup ({1, 2} : Finset (Fin 3)) [0, 1, 2]
        (fun d => (({0, 0} : Multiset (Fin 3)).count d : ℤ))).1
        = [(0, []), (1, [0]), (2, [])] := by decide
    have h2 := h 1 2 (1, [0]) (2, [])
    rw [hblocks] at h2
    exact h2 rfl rfl (by decide) 0 (by decide) (by decide)

/-- C3 (amended): feed the runner's counter from the topological sort's
dependant counts; when every node executes (`must_run` true throughout) and
every dependant's `_get_dep_nodes()` sequence yields each dependency at most
once, the release bookkeeping is exact — during node `x`'s bookkeeping a
dependency `d` is released if and only if `d` is not a target, `x` yields
`d`, and no node executed later yields `d` (`x` is the last dependant) — and
consequently no release ever happens while a dependant that has not yet
executed still needs the result. -/
theorem C3_release_discipline {n : ℕ} (yields : Fin n → List (Fin n))
    (targetsL : List (Fin n)) (l : List (Fin n)) (cnt : Multiset (Fin n))
    (hny : ∀ x, (yields x).Nodup)
    (hok : topological_sort yields targetsL = .ok l cnt) :
    (runNodes (fun _ => true) yields targetsL.toFinset l (fun d => (cnt.count d : ℤ))).1
        = runSpec yields targetsL.toFinset l ∧
    NoPrematureRelease yields
      ((runNodes (fun _ => true) yields targetsL.toFinset l (fun d => (cnt.count d : ℤ))).1) := by
  have hpost := topoLoop_post yields targetsL _ (topoInv_init yields targetsL)
  obtain ⟨_, _, _, _, hcnt⟩ := hpost.2 l cnt hok
  have hc0 : ∀ d, (cnt.count d : ℤ) = countDeps yields l d := by
    intro d
    rw [hcnt]
    exact count_of_topo_counts yields l d
  have heq := runNodes_eq_runSpec yields targetsL.toFinset hny l _ hc0
  exact ⟨heq, heq ▸ runSpec_noPremature yields targetsL.toFinset l⟩

/-- Witness for C3 (amended) at the concrete two-node graph: node 0 depends
on node 1 (one duplicate-free yield), target `{0}`. -/
theorem C3_release_discipline_witness :
    (runNodes (fun _ => true) depsPair ([0] : List (Fin 2)).toFinset [1, 0]
        (fun d => (({1} : Multiset (Fin 2)).count d : ℤ))).1
        = runSpec depsPair ([0] : List (Fin 2)).toFinset [1, 0] ∧
    NoPrematureRelease depsPair
      ((runNodes (fun _ => true) depsPair ([0] : List (Fin 2)).toFinset [1, 0]
        (fun d => (({1} : Multiset (Fin 2)).count d : ℤ))).1) := by
  apply C3_release_discipline depsPair [0] [1, 0] {1}
  · intro x
    unfold depsPair
    by_cases hx : x = 0 <;> simp [hx]
  · simp [topological_sort, topoLoop.eq_def, depsPair]

/-!
§ State layer — embedding of `CachedState` from `src/yape/nodestate.py`.

The relevant slice of the filesystem is the `CachedState` directory: its
`state/` subdirectory (holding `result.pickle` and `node_descriptor.pickle`)
and the at most one temporary directory created by `tempfile.mkdtemp`.
Results have type `V`, pickled node descriptors type `D`.
-/

structure StateDirM (V D : Type) where
  resultFile : Option V
  descFile : Option D
deriving DecidableEq

structure CSDir (V D : Type) where
  state : Option (StateDirM V D)
  tmp : Option (StateDirM V D)
deriving DecidableEq

/-- Which step of `set_result`, if any, raises an exception.  A `fail…` value
means that write raises if it is executed. -/
inductive WriteOutcome where
  | ok
  | failDescriptorWrite
  | failResultWrite
deriving DecidableEq

/-- `CachedState.set_result` (src/yape/nodestate.py lines 188–209): create a
temp directory, write `node_descriptor.pickle` (unless an external descriptor
path was supplied) and `result.pickle` into it, remove any existing `state/`,
atomically rename temp → `state/`, and in a `finally` block remove the temp
directory if it still exists; finally record the in-memory result.  Returns
the new directory contents, the new in-memory result (`mem` is
`State.__result`/`__has_result` collapsed into an `Option`), and whether the
call raised. -/
def cs_set_result {V D : Type} (extDesc : Bool) (desc : D) (fs : CSDir V D)
    (mem : Option V) (v : V) (outcome : WriteOutcome) : CSDir V D × Option V × Bool :=
  let tmp0 : StateDirM V D := ⟨none, none⟩
  if outcome = .failDescriptorWrite ∧ extDesc = false then
    -- dumping the node descriptor raises; `finally` removes the temp
    -- directory, `state/` is untouched, the exception propagates
    ({ state := fs.state, tmp := none }, mem, true)
  else
    let tmp1 := if extDesc then tmp0 else { tmp0 with descFile := some desc }
    if outcome = .failResultWrite then
      -- dumping the result raises; same unwinding
      ({ state := fs.state, tmp := none }, mem, true)
    else
      let tmp2 := { tmp1 with resultFile := some v }
      -- `shutil.rmtree(path/state)` if present, then `os.replace(tmp, state)`;
      -- after the rename the temp directory no longer exists, so the
      -- `finally` block does nothing; then `super().set_result(result)`
      ({ state := some tmp2, tmp := none }, some v, false)

/-- `CachedState.get_result` (lines 176–186): return the in-memory result if
present, otherwise load `state/result.pickle` (caching it in memory);
`.error` models the `RuntimeError` that `State.get_result` raises when no
result exists anywhere. -/
def cs_get_result {V D : Type} (fs : CSDir V D) (mem : Option V) :
    Except Unit (V × Option V) :=
  match mem with
  | some v => .ok (v, some v)
  | none =>
    match fs.state with
    | some sd =>
      match sd.resultFile with
      | some r => .ok (r, some r)
      | none => .error ()
    | none => .error ()

/-- C2: after `CachedState.set_result(v)` returns normally, `get_result()` on
that object returns `v`, and a fresh `CachedState` over the same path (no
in-memory result) also returns `v`; whenever a write raises, the temporary
directory is removed on exit and the committed `state/` directory is exactly
what it was before, so no partially-written state is observable. -/
theorem C2_set_result_spec {V D : Type} (extDesc : Bool) (desc : D) (fs : CSDir V D)
    (mem : Option V) (v : V) :
    ((cs_set_result extDesc desc fs mem v .ok).2.2 = false ∧
     (cs_set_result extDesc desc fs mem v .ok).1.tmp = none ∧
     cs_get_result (cs_set_result extDesc desc fs mem v .ok).1
       (cs_set_result extDesc desc fs mem v .ok).2.1 = .ok (v, some v) ∧
     cs_get_result (cs_set_result extDesc desc fs mem v .ok).1 none = .ok (v, some v)) ∧
    (∀ outcome, (cs_set_result extDesc desc fs mem v outcome).2.2 = true →
     (cs_set_result extDesc desc fs mem v outcome).1.tmp = none ∧
     (cs_set_result extDesc desc fs mem v outcome).1.state = fs.state) := by
  constructor
  · cases extDesc <;> simp [cs_set_result, cs_get_result]
  · intro outcome hraised
    cases outcome <;> cases extDesc <;> simp_all [cs_set_result]

/-- Witness for C2 at concrete values. -/
theorem C2_set_result_spec_witness :
    (cs_set_result false (7 : ℕ) (⟨none, none⟩ : CSDir ℕ ℕ) none 42 .failResultWrite).2.2
        = true ∧
    (cs_set_result false (7 : ℕ) (⟨none, none⟩ : CSDir ℕ ℕ) none 42 .failResultWrite).1.tmp
        = none ∧
    (cs_set_result false (7 : ℕ) (⟨none, none⟩ : CSDir ℕ ℕ) none 42 .failResultWrite).1.state
        = (⟨none, none⟩ : CSDir ℕ ℕ).state := by
  refine ⟨by decide, ?_⟩
  exact (C2_set_result_spec false 7 ⟨none, none⟩ none 42).2 .failResultWrite (by decide)

/-!
§ `CachedState.__is_up_to_date` (src/yape/nodestate.py lines 92–157).

`mtime` models the filesystem (`None` = the path does not exist); the
timestamp is `get_timestamp()` (the mtime of `state/result.pickle`).  The
recursive per-dependency checks are passed in as the already-computed pairs
`(dep_state.is_up_to_date(), dep_state.get_timestamp())` in
`_get_dep_nodes()` order, and the final saved-descriptor comparison as a
boolean.  `.error .fileNotFound` models an uncaught `FileNotFoundError`.
-/

structure UTDState where
  stateDirExists : Bool
  timestamp : ℕ
  pathins : List String
  pathouts : List String
  isResourceWithResult : Bool
  resourceExists : Bool
  depStates : List (Bool × ℕ)
  checkSavedDescriptor : Bool
  savedDescriptorMatches : Bool

inductive UTDError where
  | fileNotFound
deriving DecidableEq

/-- The `for p_in in self.node._pathins:` loop: `pathlib.Path(p_in).stat()`
raises `FileNotFoundError` for a missing path (there is no existence check),
and a too-new mtime returns `False`. -/
def checkPathIns (mtime : String → Option ℕ) (ts : ℕ) :
    List String → Except UTDError Bool
  | [] => .ok true
  | p :: rest =>
    match mtime p with
    | none => .error .fileNotFound
    | some m => if m > ts then .ok false else checkPathIns mtime ts rest

/-- The `for p_out in self.node._pathouts:` loop: a missing path returns
`False` (`if not pathlib.Path(p_out).exists(): return False`), as does a
too-new mtime. -/
def checkPathOuts (mtime : String → Option ℕ) (ts : ℕ) : List String → Bool
  | [] => true
  | p :: rest =>
    match mtime p with
    | none => false
    | some m => if m > ts then false else checkPathOuts mtime ts rest

/-- The dependency loop: every dependency must be up to date with a timestamp
not exceeding this node's. -/
def checkDeps (ts : ℕ) : List (Bool × ℕ) → Bool
  | [] => true
  | (u, t) :: rest => if !u then false else if t > ts then false else checkDeps ts rest

/-- `CachedState.__is_up_to_date`, in source order. -/
def is_up_to_date (mtime : String → Option ℕ) (cs : UTDState) : Except UTDError Bool :=
  if !cs.stateDirExists then .ok false
  else
    match checkPathIns mtime cs.timestamp cs.pathins with
    | .error e => .error e
    | .ok false => .ok false
    | .ok true =>
      if !checkPathOuts mtime cs.timestamp cs.pathouts then .ok false
      else if cs.isResourceWithResult && !cs.resourceExists then .ok false
      else if !checkDeps cs.timestamp cs.depStates then .ok false
      else if cs.checkSavedDescriptor && !cs.savedDescriptorMatches then .ok false
      else .ok true

/-- Counterexample to C5 as stated: a state whose directory exists but whose
single declared `PathIn` is missing from the filesystem makes
`is_up_to_date()` raise `FileNotFoundError` (from the unguarded `stat()`
call) instead of returning false. -/
theorem C5_counterexample :
    is_up_to_date (fun _ => none)
      ⟨true, 10, ["input.txt"], [], false, false, [], false, false⟩
      = .error .fileNotFound ∧
    is_up_to_date (fun _ => none)
      ⟨true, 10, ["input.txt"], [], false, false, [], false, false⟩
      ≠ .ok false := by
  exact ⟨rfl, by simp [is_up_to_date, checkPathIns]⟩

/-- C5 (amended): the missing-file short-circuit to false holds only for
`PathOut` declarations.  For a `PathIn`, the check calls `stat()` without an
existence test, so when the first offending input path is missing (all input
paths before it exist with mtime within the state timestamp),
`is_up_to_date()` propagates `FileNotFoundError` instead of returning false;
a missing `PathOut` (with all input paths healthy) returns false. -/
theorem C5_missing_path_behaviour (mtime : String → Option ℕ) (cs : UTDState)
    (hdir : cs.stateDirExists = true) :
    (∀ pre p suf, cs.pathins = pre ++ p :: suf →
      (∀ q ∈ pre, ∃ m, mtime q = some m ∧ m ≤ cs.timestamp) →
      mtime p = none →
      is_up_to_date mtime cs = .error .fileNotFound) ∧
    (∀ pre p suf, cs.pathouts = pre ++ p :: suf →
      (∀ q ∈ cs.pathins, ∃ m, mtime q = some m ∧ m ≤ cs.timestamp) →
      (∀ q ∈ pre, ∃ m, mtime q = some m ∧ m ≤ cs.timestamp) →
      mtime p = none →
      is_up_to_date mtime cs = .ok false) := by
  have hins_err : ∀ (pre : List String) (p : String) (suf : List String),
      (∀ q ∈ pre, ∃ m, mtime q = some m ∧ m ≤ cs.timestamp) → mtime p = none →
      checkPathIns mtime cs.timestamp (pre ++ p :: suf) = .error .fileNotFound := by
    intro pre
    induction pre with
    | nil =>
      intro p suf _ hp
      simp [checkPathIns, hp]
    | cons q rest ih =>
      intro p suf hq hp
      obtain ⟨m, hm, hle⟩ := hq q (List.mem_cons_self _ _)
      have : ¬ m > cs.timestamp := by omega
      simp only [List.cons_append, checkPathIns, hm, this, if_false]
      exact ih p suf (fun r hr => hq r (List.mem_cons_of_mem _ hr)) hp
  have hins_ok : ∀ ins : List String,
      (∀ q ∈ ins, ∃ m, mtime q = some m ∧ m ≤ cs.timestamp) →
      checkPathIns mtime cs.timestamp ins = .ok true := by
    intro ins
    induction ins with
    | nil => intro _; rfl
    | cons q rest ih =>
      intro hq
      obtain ⟨m, hm, hle⟩ := hq q (List.mem_cons_self _ _)
      have : ¬ m > cs.timestamp := by omega
      simp only [checkPathIns, hm, this, if_false]
      exact ih (fun r hr => hq r (List.mem_cons_of_mem _ hr))
  have houts_false : ∀ (pre : List String) (p : String) (suf : List String),
      (∀ q ∈ pre, ∃ m, mtime q = some m ∧ m ≤ cs.timestamp) → mtime p = none →
      checkPathOuts mtime cs.timestamp (pre ++ p :: suf) = false := by
    intro pre
    induction pre with
    | nil =>
      intro p suf _ hp
      simp [checkPathOuts, hp]
    | cons q rest ih =>
      intro p suf hq hp
      obtain ⟨m, hm, hle⟩ := hq q (List.mem_cons_self _ _)
      have : ¬ m > cs.timestamp := by omega
      simp only [List.cons_append, checkPathOuts, hm, this, if_false]
      exact ih p suf (fun r hr => hq r (List.mem_cons_of_mem _ hr)) hp
  constructor
  · intro pre p suf hins hpre hp
    unfold is_up_to_date
    rw [hdir, hins]
    simp only [Bool.not_true, Bool.false_eq_true, if_false]
    rw [hins_err pre p suf hpre hp]
  · intro pre p suf houts hins hpre hp
    unfold is_up_to_date
    rw [hdir, hins_ok cs.pathins hins, houts]
    simp only [Bool.not_true, Bool.false_eq_true, if_false]
    rw [houts_false pre p suf hpre hp]
    simp

/-- Witness for C5 (amended) at concrete values: one healthy input path, one
missing input path; and the contrasting missing output path. -/
theorem C5_missing_path_behaviour_witness :
    is_up_to_date (fun q => if q = "a.txt" then some 5 else none)
      ⟨true, 10, ["a.txt", "b.txt"], [], false, false, [], false, false⟩
      = .error .fileNotFound ∧
    is_up_to_date (fun q => if q = "a.txt" then some 5 else none)
      ⟨true, 10, ["a.txt"], ["out.bin"], false, false, [], false, false⟩
      = .ok false := by
  constructor
  · exact (C5_missing_path_behaviour _ _ rfl).1 ["a.txt"] "b.txt" []
      rfl (by intro q hq; simp at hq; subst hq; exact ⟨5, by simp, by decide⟩) (by simp)
  · exact (C5_missing_path_behaviour _ _ rfl).2 [] "out.bin" []
      rfl (by intro q hq; simp at hq; subst hq; exact ⟨5, by simp, by decide⟩)
      (by intro q hq; simp at hq) (by simp)

/-!
§ Context globals — embedding of `YapeContext.__enter__`/`__exit__`
(src/yape/yapecontext.py lines 111–133) and `StateNamespace.__enter__`/
`__exit__` (src/yape/nodestate.py lines 230–245).

The two module globals are `yapecontext._current_context` and
`nodestate._current_namespace`.  Resource-provider `__enter__`/`__exit__`
only push/pop `resmod._providers_stack` and never touch these globals, so
they are omitted.  A failed `__enter__` raises before mutating anything, so
it leaves the globals unchanged.
-/

structure CtxGlobals where
  currentContext : Option Unit
  currentNamespace : Option Unit
deriving DecidableEq

inductive CtxError where
  | contextInUse
  | namespaceInPlace
deriving DecidableEq

/-- `StateNamespace.__enter__`: error if a namespace is already current,
otherwise install this one. -/
def ns_enter (g : CtxGlobals) : Except CtxError CtxGlobals :=
  if g.currentNamespace.isSome then .error .namespaceInPlace
  else .ok { g with currentNamespace := some () }

/-- `StateNamespace.__exit__`: clear the current namespace. -/
def ns_exit (g : CtxGlobals) : CtxGlobals :=
  { g with currentNamespace := none }

/-- `YapeContext.__enter__`: guard on `_current_context`, then enter the
namespace (and push providers) through the exit stack.  Note the source never
assigns `_current_context`. -/
def yctx_enter (g : CtxGlobals) : Except CtxError CtxGlobals :=
  if g.currentContext.isSome then .error .contextInUse
  else ns_enter g

/-- `YapeContext.__exit__`: close the exit stack, which exits the namespace
(and pops providers). -/
def yctx_exit (g : CtxGlobals) : CtxGlobals :=
  ns_exit g

inductive CtxOp where
  | enterContext
  | exitContext
  | enterNamespace
  | exitNamespace
deriving DecidableEq

/-- One operation on the globals; an enter that raises leaves them unchanged
(the exception propagates before any assignment). -/
def applyCtxOp (g : CtxGlobals) : CtxOp → CtxGlobals
  | .enterContext =>
    match yctx_enter g with
    | .ok g' => g'
    | .error _ => g
  | .exitContext => yctx_exit g
  | .enterNamespace =>
    match ns_enter g with
    | .ok g' => g'
    | .error _ => g
  | .exitNamespace => ns_exit g

def runCtxOps (ops : List CtxOp) (g : CtxGlobals) : CtxGlobals :=
  ops.foldl applyCtxOp g

/-- C10: `YapeContext.__enter__` never assigns `_current_context`: it stays
`None` across any sequence of context/namespace entries and exits, so the
"there is a yape context already in use" guard can never fire; attempting to
nest a second `YapeContext` (or a `StateNamespace`) after a successful entry
is instead rejected by `StateNamespace.__enter__` with "there is already a
state namespace in place". -/
theorem C10_current_context_never_set :
    (∀ ops : List CtxOp, (runCtxOps ops ⟨none, none⟩).currentContext = none) ∧
    (∀ g : CtxGlobals, g.currentContext = none →
      yctx_enter g ≠ .error .contextInUse) ∧
    (∀ g g' : CtxGlobals, yctx_enter g = .ok g' →
      yctx_enter g' = .error .namespaceInPlace ∧
      ns_enter g' = .error .namespaceInPlace ∧
      g'.currentContext = g.currentContext) := by
  refine ⟨?_, ?_, ?_⟩
  · have hop : ∀ (g : CtxGlobals) (op : CtxOp),
        (applyCtxOp g op).currentContext = g.currentContext := by
      intro g op
      cases op with
      | enterContext =>
        unfold applyCtxOp yctx_enter ns_enter
        by_cases h1 : g.currentContext.isSome
        · simp [h1]
        · by_cases h2 : g.currentNamespace.isSome <;> simp [h1, h2]
      | exitContext => rfl
      | enterNamespace =>
        unfold applyCtxOp ns_enter
        by_cases h2 : g.currentNamespace.isSome <;> simp [h2]
      | exitNamespace => rfl
    intro ops
    suffices h : ∀ (g : CtxGlobals), (runCtxOps ops g).currentContext = g.currentContext by
      exact h ⟨none, none⟩
    unfold runCtxOps
    induction ops with
    | nil => intro g; rfl
    | cons op rest ih =>
      intro g
      rw [List.foldl_cons, ih, hop]
  · intro g hg
    unfold yctx_enter ns_enter
    rw [hg]
    by_cases h2 : g.currentNamespace.isSome <;> simp [h2]
  · intro g g' henter
    unfold yctx_enter ns_enter at henter
    by_cases h1 : g.currentContext.isSome
    · simp [h1] at henter
    · by_cases h2 : g.currentNamespace.isSome
      · simp [h1, h2] at henter
      · simp only [h1, h2, if_false, Bool.false_eq_true] at henter
        injection henter with hg'
        subst hg'
        refine ⟨?_, ?_, rfl⟩
        · unfold yctx_enter ns_enter
          simp [h1]
        · unfold ns_enter
          simp

/-- Witness for C10 at concrete inputs: entering from the pristine globals
succeeds, and a nested entry then fails with the namespace error while
`_current_context` is still `None`. -/
theorem C10_current_context_never_set_witness :
    (runCtxOps [.enterContext, .enterContext] ⟨none, none⟩).currentContext = none ∧
    yctx_enter ⟨none, none⟩ ≠ .error .contextInUse ∧
    yctx_enter ⟨none, some ()⟩ = .error .namespaceInPlace := by
  refine ⟨C10_current_context_never_set.1 [.enterContext, .enterContext],
    C10_current_context_never_set.2.1 ⟨none, none⟩ rfl, ?_⟩
  exact (C10_current_context_never_set.2.2 ⟨none, none⟩ ⟨none, some ()⟩ rfl).1

/-!
§ `Runner.run` keyword arguments vs the CLI `run` subcommand.

`Runner.run` in src/yape/grun.py line 32 is declared as
`def run(self, targets=None, graph=None, ns=None)`; `CLI.__cmd_run` in
src/yape/climodule.py lines 121–131 invokes
`self.__runner.run(graph=…, targets=…, force=…, return_results=False)`.
A Python call with a keyword argument that is not among the callee's
parameters raises `TypeError`.
-/

def runnerRunParams : List String := ["targets", "graph", "ns"]

def cmdRunKwargs : List String := ["graph", "targets", "force", "return_results"]

/-- A Python keyword call binds iff every keyword names a parameter. -/
def pythonKwCallOk (params kwargs : List String) : Bool :=
  kwargs.all (fun k => params.contains k)

/-- C4 is a code bug: `Runner.run` accepts only `targets`, `graph` and `ns`,
so the CLI `run` subcommand's invocation with `force` and `return_results`
raises `TypeError` rather than succeeding. -/
theorem C4_cli_run_signature_mismatch :
    pythonKwCallOk runnerRunParams cmdRunKwargs = false ∧
    "force" ∉ runnerRunParams ∧ "return_results" ∉ runnerRunParams ∧
    pythonKwCallOk runnerRunParams ["targets", "graph", "ns"] = true := by
  refine ⟨by decide, by decide, by decide, by decide⟩

/-!
§ Walk protocol — embedding of `walk`/`walk_value` from `src/yape/walkproto.py`
(lines 233–295) and of `node_descriptor` (lines 309–373).

Python argument values live on a heap of `N` cells addressed by `Fin N`
(Python's `id()` is the address), so aliasing and reference cycles are
representable.  The constructors of `PyVal` are grouped by the dispatch
branch `walk_value` takes: the `isinstance` branches (path/resource
wrappers, nodes), the identity checks (`CTX`, `UNSET`), the exact-type
checks (`type(value) == list/tuple/dict`), the `isinstance(value,
types.FunctionType)` branch, and the fallback.  `listSubV`/`tupleSubV`/
`dictSubV` model instances of *strict subclasses* of `list`/`tuple`/`dict`:
for those `type(value) == list` (etc.) is false, so they fall through to the
`Other` branch even though they carry elements.  `moduleV` models a module
object (an `Other` for the walk, replaced by `ModuleDescriptor` in the node
descriptor).  Node objects are referenced by an identifier into a separate
node table.
-/

inductive PyVal (N : ℕ) (V K : Type) where
  | pathOutV (p : String)
  | pathInV (p : String)
  | resourceOutV (node : ℕ)
  | resourceInV (node : ℕ)
  | nodeV (node : ℕ)
  | ctxV
  | unsetV
  | listV (elems : List (Fin N))
  | tupleV (elems : List (Fin N))
  | dictV (entries : List (K × Fin N))
  | funcV (code : ℕ) (globals nonlocals defaults kwdefaults : Fin N)
  | listSubV (elems : List (Fin N))
  | tupleSubV (elems : List (Fin N))
  | dictSubV (entries : List (K × Fin N))
  | moduleV (name : String)
  | otherV (v : V)
deriving DecidableEq

/-- The `NodeOp` variants (src/yape/nodeop.py), with argument values as heap
addresses.  `Data.payload = none` stands for Python `None` (the value the
descriptor substitutes); the `id` field is carried directly. -/
inductive OpH (N : ℕ) (V K : Type) where
  | dataOp (payload : Option (Fin N)) (id : Option String)
  | valueOp (v : Fin N)
  | getItem (obj key : Fin N)
  | getAttr (obj name : Fin N)
  | callOp (fn args kwargs : Fin N)
  | resourceOp (request handle : Fin N)
deriving DecidableEq

/-- `type(op).__name__`, as emitted in the `OpType` event. -/
def opName {N : ℕ} {V K : Type} : OpH N V K → String
  | .dataOp _ _ => "Data"
  | .valueOp _ => "Value"
  | .getItem _ _ => "GetItem"
  | .getAttr _ _ => "GetAttr"
  | .callOp _ _ _ => "Call"
  | .resourceOp _ _ => "Resource"

/-- `for v in op:` — the named-tuple fields, in order (`Data` is never
iterated: `walk` handles it separately). -/
def opFields {N : ℕ} {V K : Type} : OpH N V K → List (Fin N)
  | .dataOp _ _ => []
  | .valueOp v => [v]
  | .getItem o k => [o, k]
  | .getAttr o nm => [o, nm]
  | .callOp f a k => [f, a, k]
  | .resourceOp r h => [r, h]

/-- The walk/descriptor events (walkproto.py event classes).  Events that
carry a node or wrapper carry the node identifier (`none` after the
descriptor clears the value). -/
inductive WEvent (N : ℕ) (V K : Type) where
  | valueId (id : ℕ)
  | refE (id : ℕ)
  | opTypeE (name : String)
  | dataOpE (op : OpH N V K)
  | pathOutE (p : String)
  | pathInE (p : String)
  | resourceOutE (node : Option ℕ)
  | resourceInE (node : Option ℕ)
  | nodeE (node : Option ℕ)
  | ctxE
  | unsetE
  | tupleE (size : ℕ)
  | listE (size : ℕ)
  | dictE (keys : List K)
  | funcE (code : ℕ)
  | otherE (v : PyVal N V K)
  | moduleDescE (name : String)
  | pathinsDescE (paths : List String)
  | pathoutsDescE (paths : List String)
  | producedResourceDescE
deriving DecidableEq

/-- The `refs` table of `walk_value`: object identities in first-visit order
(`refs[id(value)] = len(refs)` assigns the position as the index). -/
def RefList (N : ℕ) : Type := {l : List (Fin N) // l.Nodup}

mutual

/-- `walk_value(value, refs)` (walkproto.py lines 243–295): emit `Ref` for an
already-seen identity, otherwise register the identity, emit `ValueId`
followed by the value's descriptor events, recursing only through `list`,
`tuple`, `dict` and function objects.  Returns the events and the grown refs
table (with the proof that the old table is a prefix of the new one). -/
def walk_value {N : ℕ} {V K : Type} (heap : Fin N → PyVal N V K) (a : Fin N)
    (refs : RefList N) :
    List (WEvent N V K) × {r : RefList N // refs.val <+: r.val} :=
  if h : a ∈ refs.val then
    ([.refE (refs.val.indexOf a)], ⟨refs, ⟨[], List.append_nil _⟩⟩)
  else
    let refs1 : RefList N := ⟨refs.val ++ [a], by
      rw [List.nodup_append]
      exact ⟨refs.property, List.nodup_singleton a, by
        intro x hx hx2
        rw [List.mem_singleton] at hx2
        exact h (hx2 ▸ hx)⟩⟩
    let pre1 : refs.val <+: refs1.val := ⟨[a], rfl⟩
    let vid : WEvent N V K := .valueId refs.val.length
    match heap a with
    | .pathOutV p => ([vid, .pathOutE p], ⟨refs1, pre1⟩)
    | .pathInV p => ([vid, .pathInE p], ⟨refs1, pre1⟩)
    | .resourceOutV nid => ([vid, .resourceOutE (some nid)], ⟨refs1, pre1⟩)
    | .resourceInV nid => ([vid, .resourceInE (some nid)], ⟨refs1, pre1⟩)
    | .nodeV nid => ([vid, .nodeE (some nid)], ⟨refs1, pre1⟩)
    | .ctxV => ([vid, .ctxE], ⟨refs1, pre1⟩)
    | .unsetV => ([vid, .unsetE], ⟨refs1, pre1⟩)
    | .listV es =>
      let r := walk_list heap es refs1
      (vid :: .listE es.length :: r.1, ⟨r.2.val, pre1.trans r.2.property⟩)
    | .tupleV es =>
      let r := walk_list heap es refs1
      (vid :: .tupleE es.length :: r.1, ⟨r.2.val, pre1.trans r.2.property⟩)
    | .dictV entries =>
      let r := walk_list heap (entries.map Prod.snd) refs1
      (vid :: .dictE (entries.map Prod.fst) :: r.1, ⟨r.2.val, pre1.trans r.2.property⟩)
    | .funcV code g nl df kd =>
      let r := walk_list heap [g, nl, df, kd] refs1
      (vid :: .funcE code :: r.1, ⟨r.2.val, pre1.trans r.2.property⟩)
    | .listSubV es => ([vid, .otherE (.listSubV es)], ⟨refs1, pre1⟩)
    | .tupleSubV es => ([vid, .otherE (.tupleSubV es)], ⟨refs1, pre1⟩)
    | .dictSubV entries => ([vid, .otherE (.dictSubV entries)], ⟨refs1, pre1⟩)
    | .moduleV nm => ([vid, .otherE (.moduleV nm)], ⟨refs1, pre1⟩)
    | .otherV v => ([vid, .otherE (.otherV v)], ⟨refs1, pre1⟩)
termination_by (N - refs.val.length, 0)
decreasing_by
  all_goals
    apply Prod.Lex.left
    have hle : (refs.val ++ [a]).length ≤ N := by
      have hnd : (refs.val ++ [a]).Nodup := by
        rw [List.nodup_append]
        exact ⟨refs.property, List.nodup_singleton a, by
          intro x hx hx2
          rw [List.mem_singleton] at hx2
          exact h (hx2 ▸ hx)⟩
      simpa using hnd.length_le_card
    simp only [List.length_append, List.length_singleton] at hle ⊢
    omega

/-- Sequential `yield from walk_value(v, refs)` over a list of child values,
threading the shared refs table. -/
def walk_list {N : ℕ} {V K : Type} (heap : Fin N → PyVal N V K) (as0 : List (Fin N))
    (refs : RefList N) :
    List (WEvent N V K) × {r : RefList N // refs.val <+: r.val} :=
  match as0 with
  | [] => ([], ⟨refs, ⟨[], List.append_nil _⟩⟩)
  | c :: cs =>
    let r1 := walk_value heap c refs
    let r2 := walk_list heap cs r1.2.val
    (r1.1 ++ r2.1, ⟨r2.2.val, r1.2.property.trans r2.2.property⟩)
termination_by (N - refs.val.length, as0.length + 1)
decreasing_by
  · exact Prod.Lex.right _ (by omega)
  · have hlen : refs.val.length ≤ r1.2.val.val.length := r1.2.property.length_le
    rcases Nat.lt_or_ge (N - r1.2.val.val.length) (N - refs.val.length) with hlt | hge
    · exact Prod.Lex.left _ _ hlt
    · have heq : N - r1.2.val.val.length = N - refs.val.length := by omega
      rw [heq]
      refine Prod.Lex.right _ ?_
      simp

end

/-- `walk(op)` (walkproto.py lines 233–240): emit `OpType`, then for a `Data`
operator a single `DataOp` event, otherwise walk every field with a fresh
refs table. -/
def walk {N : ℕ} {V K : Type} (heap : Fin N → PyVal N V K) (op : OpH N V K) :
    List (WEvent N V K) :=
  .opTypeE (opName op) ::
    (match op with
     | .dataOp p i => [.dataOpE (.dataOp p i)]
     | o => (walk_list heap (opFields o) ⟨[], List.nodup_nil⟩).1)

/-- The per-node data `_get_dep_nodes` and `node_descriptor` look at: the
operator, `_pathins` and `_pathouts` (path strings). -/
structure NodeDataM (N : ℕ) (V K : Type) where
  op : OpH N V K
  pathins : List String
  pathouts : List String

/-- `Node._get_dep_nodes` (src/yape/gn.py lines 145–162): from the walk
events, a `Node` event yields the node; a `ResourceIn` event yields the
resource node and then its producers; a `ResourceOut` event yields the
resource node; finally each declared `PathIn` whose producer is registered
(`parent.path_producer`) yields that producer. -/
def get_dep_nodes {N : ℕ} {V K : Type} (heap : Fin N → PyVal N V K)
    (producers : ℕ → List ℕ) (pathProducer : String → Option ℕ)
    (nd : NodeDataM N V K) : List ℕ :=
  ((walk heap nd.op).flatMap fun e =>
    match e with
    | .nodeE (some i) => [i]
    | .resourceInE (some i) => i :: producers i
    | .resourceOutE (some i) => [i]
    | _ => []) ++ nd.pathins.filterMap pathProducer

/-- A node descriptor is a tuple whose items are events, nested descriptor
tuples (`desc.append(node_descriptor(n))`), or the
`ResourceProducersDescriptor` with its tuple of producer descriptors. -/
inductive DescItem (N : ℕ) (V K : Type) where
  | evt (e : WEvent N V K)
  | producersDesc (ds : List (List (DescItem N V K)))
  | subDesc (d : List (DescItem N V K))

/-- Python truthiness of the `Data.id` field (`if op.id:`): `None` and the
empty string are falsy. -/
def idTruthy : Option String → Bool
  | none => false
  | some s => !(s == "")

/-- `node_descriptor(node)` (walkproto.py lines 309–373), on the
`cache=None` path, over a node table.  The source recurses through referenced
nodes on the Python call stack; `fuel` bounds that recursion (the source
never returns on a cyclic node graph, which the graph layer rules out).
`sortProducers` stands for `util.sorted_with_fallback`: a deterministic
reordering of the producer-descriptor list; every result below holds for an
arbitrary such function.  `resourceNode` is the keyword-only
`_resource_node` argument used to break the producer recursion with a
`ProducedResourceDescriptor` marker. -/
def node_descriptor {N : ℕ} {V K : Type} (heap : Fin N → PyVal N V K)
    (nodes : ℕ → NodeDataM N V K) (producers : ℕ → List ℕ)
    (sortProducers : List (List (DescItem N V K)) → List (List (DescItem N V K))) :
    ℕ → ℕ → Option ℕ → List (DescItem N V K)
  | 0, _, _ => []
  | fuel + 1, nid, resourceNode =>
    let nd := nodes nid
    let op := match nd.op with
      | .dataOp p i => if idTruthy i then OpH.dataOp none i else OpH.dataOp p i
      | o => o
    [DescItem.evt (.pathinsDescE nd.pathins),
     DescItem.evt (.pathoutsDescE nd.pathouts),
     DescItem.producersDesc (sortProducers ((producers nid).map
       (fun m => node_descriptor heap nodes producers sortProducers fuel m (some nid))))]
    ++ (walk heap op).flatMap (fun e =>
      match e with
      | .nodeE (some m) =>
        [DescItem.evt (.nodeE none),
         DescItem.subDesc (node_descriptor heap nodes producers sortProducers fuel m none)]
      | .resourceOutE (some m) =>
        if resourceNode = some m then
          [DescItem.evt (.resourceOutE none), DescItem.evt .producedResourceDescE]
        else
          [DescItem.evt (.resourceOutE none),
           DescItem.subDesc (node_descriptor heap nodes producers sortProducers fuel m none)]
      | .resourceInE (some m) =>
        [DescItem.evt (.resourceInE none),
         DescItem.subDesc (node_descriptor heap nodes producers sortProducers fuel m none)]
      | .otherE (.moduleV nm) => [DescItem.evt (.moduleDescE nm)]
      | e => [DescItem.evt e])

/-- The event following `ValueId` on a first visit, by dispatch branch. -/
def firstDescEvent {N : ℕ} {V K : Type} (val : PyVal N V K) : WEvent N V K :=
  match val with
  | .pathOutV p => .pathOutE p
  | .pathInV p => .pathInE p
  | .resourceOutV nid => .resourceOutE (some nid)
  | .resourceInV nid => .resourceInE (some nid)
  | .nodeV nid => .nodeE (some nid)
  | .ctxV => .ctxE
  | .unsetV => .unsetE
  | .listV es => .listE es.length
  | .tupleV es => .tupleE es.length
  | .dictV entries => .dictE (entries.map Prod.fst)
  | .funcV code _ _ _ _ => .funcE code
  | v => .otherE v

lemma refList_length_le {N : ℕ} (r : RefList N) : r.val.length ≤ N := by
  have := r.property.length_le_card
  simpa using this

lemma indexOf_of_isPrefix {α : Type*} [DecidableEq α] {l l' : List α} {a : α}
    (h : l <+: l') (ha : a ∈ l) : l'.indexOf a = l.indexOf a := by
  obtain ⟨t, rfl⟩ := h
  exact List.indexOf_append_of_mem ha

lemma walk_value_visited {N : ℕ} {V K : Type} (heap : Fin N → PyVal N V K)
    (a : Fin N) (refs : RefList N) (h : a ∈ refs.val) :
    (walk_value heap a refs).1 = [.refE (refs.val.indexOf a)] ∧
    (walk_value heap a refs).2.val = refs := by
  rw [walk_value.eq_def]
  rw [dif_pos h]
  exact ⟨rfl, rfl⟩

lemma walk_value_fresh {N : ℕ} {V K : Type} (heap : Fin N → PyVal N V K)
    (a : Fin N) (refs : RefList N) (h : a ∉ refs.val) :
    (walk_value heap a refs).1.take 2
        = [.valueId refs.val.length, firstDescEvent (heap a)] ∧
    refs.val ++ [a] <+: (walk_value heap a refs).2.val.val := by
  rw [walk_value.eq_def]
  rw [dif_neg h]
  have hnd : (refs.val ++ [a]).Nodup := by
    rw [List.nodup_append]
    exact ⟨refs.property, List.nodup_singleton a, by
      intro x hx hx2
      rw [List.mem_singleton] at hx2
      exact h (hx2 ▸ hx)⟩
  cases hheap : heap a
  all_goals
    simp only [hheap, firstDescEvent]
    refine ⟨by simp, ?_⟩
    first
      | exact ⟨[], List.append_nil _⟩
      | (rename_i es
         first
           | exact (walk_list heap es ⟨refs.val ++ [a], hnd⟩).2.property
           | exact (walk_list heap (es.map Prod.snd) ⟨refs.val ++ [a], hnd⟩).2.property)
      | (rename_i code g nl df kd
         exact (walk_list heap [g, nl, df, kd] ⟨refs.val ++ [a], hnd⟩).2.property)

/-- C7: the walk's refs table makes every event stream finite even in the
presence of aliasing and reference cycles: a repeat visit to an object emits
only `Ref(n)` and recurses no further; a first visit registers the identity
and emits `ValueId(n)` followed by the value's descriptor events, growing
the refs table (which can never exceed the heap size); and any later visit
to the same object emits `Ref` with the same index `n` that the first visit
assigned. -/
theorem C7_walk_aliasing {N : ℕ} {V K : Type} (heap : Fin N → PyVal N V K) :
    (∀ (a : Fin N) (refs : RefList N), a ∈ refs.val →
      (walk_value heap a refs).1 = [.refE (refs.val.indexOf a)] ∧
      (walk_value heap a refs).2.val = refs) ∧
    (∀ (a : Fin N) (refs : RefList N), a ∉ refs.val →
      (walk_value heap a refs).1.take 2
          = [.valueId refs.val.length, firstDescEvent (heap a)] ∧
      refs.val ++ [a] <+: (walk_value heap a refs).2.val.val ∧
      (walk_value heap a refs).2.val.val.length ≤ N) ∧
    (∀ (a : Fin N) (refs r2 : RefList N), a ∉ refs.val →
      refs.val ++ [a] <+: r2.val →
      (walk_value heap a r2).1 = [.refE refs.val.length]) := by
  refine ⟨fun a refs h => walk_value_visited heap a refs h, ?_, ?_⟩
  · intro a refs h
    obtain ⟨h1, h2⟩ := walk_value_fresh heap a refs h
    exact ⟨h1, h2, refList_length_le _⟩
  · intro a refs r2 h hpre
    have hmem : a ∈ r2.val := hpre.subset (by simp)
    have hidx : r2.val.indexOf a = refs.val.length := by
      rw [indexOf_of_isPrefix hpre (by simp), List.indexOf_append_of_not_mem h]
      simp
    rw [(walk_value_visited heap a r2 hmem).1, hidx]

/-- A one-cell heap forming a reference cycle: the list contains itself. -/
def heapCyc : Fin 1 → PyVal 1 ℕ ℕ := fun _ => .listV [0]

/-- Witness for C7 on the self-referential list: the first visit emits
`ValueId 0` then the `List` descriptor event, and the visit to the same
object from inside itself emits `Ref 0` only. -/
theorem C7_walk_aliasing_witness :
    ((walk_value heapCyc 0 ⟨[], List.nodup_nil⟩).1.take 2
        = [.valueId 0, .listE 1]) ∧
    (walk_value heapCyc 0 ⟨[0], List.nodup_singleton 0⟩).1 = [.refE 0] := by
  constructor
  · exact ((C7_walk_aliasing heapCyc).2.1 0 ⟨[], List.nodup_nil⟩ (by simp)).1
  · exact (C7_walk_aliasing heapCyc).2.2 0 ⟨[], List.nodup_nil⟩
      ⟨[0], List.nodup_singleton 0⟩ (by simp) ⟨[], by simp⟩

lemma walk_list_nil {N : ℕ} {V K : Type} (heap : Fin N → PyVal N V K) (refs : RefList N) :
    (walk_list heap [] refs).1 = [] := by
  rw [walk_list.eq_def]

lemma walk_list_cons {N : ℕ} {V K : Type} (heap : Fin N → PyVal N V K) (c : Fin N)
    (cs : List (Fin N)) (refs : RefList N) :
    (walk_list heap (c :: cs) refs).1
      = (walk_value heap c refs).1 ++ (walk_list heap cs (walk_value heap c refs).2.val).1 := by
  rw [walk_list.eq_def]

/-- One unfolding step of `node_descriptor` at positive fuel. -/
lemma node_descriptor_succ {N : ℕ} {V K : Type} (heap : Fin N → PyVal N V K)
    (nodes : ℕ → NodeDataM N V K) (producers : ℕ → List ℕ)
    (sortP : List (List (DescItem N V K)) → List (List (DescItem N V K)))
    (fuel nid : ℕ) (rn : Option ℕ) :
    node_descriptor heap nodes producers sortP (fuel + 1) nid rn
      = [DescItem.evt (.pathinsDescE (nodes nid).pathins),
         DescItem.evt (.pathoutsDescE (nodes nid).pathouts),
         DescItem.producersDesc (sortP ((producers nid).map
           (fun m => node_descriptor heap nodes producers sortP fuel m (some nid))))]
        ++ (walk heap (match (nodes nid).op with
              | .dataOp p i => if idTruthy i then OpH.dataOp none i else OpH.dataOp p i
              | o => o)).flatMap (fun e =>
          match e with
          | .nodeE (some m) =>
            [DescItem.evt (.nodeE none),
             DescItem.subDesc (node_descriptor heap nodes producers sortP fuel m none)]
          | .resourceOutE (some m) =>
            if rn = some m then
              [DescItem.evt (.resourceOutE none), DescItem.evt .producedResourceDescE]
            else
              [DescItem.evt (.resourceOutE none),
               DescItem.subDesc (node_descriptor heap nodes producers sortP fuel m none)]
          | .resourceInE (some m) =>
            [DescItem.evt (.resourceInE none),
             DescItem.subDesc (node_descriptor heap nodes producers sortP fuel m none)]
          | .otherE (.moduleV nm) => [DescItem.evt (.moduleDescE nm)]
          | e => [DescItem.evt e]) := rfl

/-- A heap whose cell 0 is a function object whose four walked children
(globals, nonlocals, defaults, kwdefaults) all alias cell 1, a dict. -/
def heapF : Fin 2 → PyVal 2 ℕ ℕ := fun i => if i = 0 then .funcV 99 1 1 1 1 else .dictV []

/-- Counterexample to C9 as stated: `walk_value` also descends into values of
concrete type `function` — cell 0 is neither a list, a tuple nor a dict, yet
its walk is not a single `Other` leaf: it emits `Func` and recurses into the
function's globals, nonlocals, defaults and kwdefaults. -/
theorem C9_counterexample :
    (∀ es : List (Fin 2), heapF 0 ≠ .listV es ∧ heapF 0 ≠ .tupleV es) ∧
    (∀ ents : List (ℕ × Fin 2), heapF 0 ≠ .dictV ents) ∧
    (walk_value heapF 0 ⟨[], List.nodup_nil⟩).1
      = [.valueId 0, .funcE 99, .valueId 1, .dictE [], .refE 1, .refE 1, .refE 1] := by
  refine ⟨fun es => ⟨by simp [heapF], by simp [heapF]⟩, fun ents => by simp [heapF], ?_⟩
  simp [walk_value.eq_def, walk_list.eq_def, heapF]

lemma walk_value_subclass_leaf {N : ℕ} {V K : Type} (heap : Fin N → PyVal N V K)
    (a : Fin N) (refs : RefList N) (h : a ∉ refs.val)
    (hsub : (∃ es, heap a = .listSubV es) ∨ (∃ es, heap a = .tupleSubV es) ∨
      (∃ ents, heap a = .dictSubV ents)) :
    (walk_value heap a refs).1 = [.valueId refs.val.length, .otherE (heap a)] ∧
    (walk_value heap a refs).2.val.val = refs.val ++ [a] := by
  rw [walk_value.eq_def, dif_neg h]
  rcases hsub with ⟨es, hh⟩ | ⟨es, hh⟩ | ⟨ents, hh⟩ <;> rw [hh] <;> exact ⟨rfl, rfl⟩

/-- C9 (amended): `walk_value` descends only into values whose concrete type
is exactly `list`, `tuple` or `dict` — and into function objects.  An
instance of a strict subclass of `list`/`tuple`/`dict` is emitted as a single
`Other` leaf whose elements are not walked, so node references hidden inside
such a value are neither reported by `_get_dep_nodes` nor expanded into the
node descriptor (the descriptor keeps the single opaque `Other` leaf and
contains no `Node` event and no nested descriptor for them). -/
theorem C9_subclass_not_walked {N : ℕ} {V K : Type} (heap : Fin N → PyVal N V K) :
    (∀ (a : Fin N) (refs : RefList N), a ∉ refs.val →
      ((∃ es, heap a = .listSubV es) ∨ (∃ es, heap a = .tupleSubV es) ∨
        (∃ ents, heap a = .dictSubV ents)) →
      (walk_value heap a refs).1 = [.valueId refs.val.length, .otherE (heap a)] ∧
      (walk_value heap a refs).2.val.val = refs.val ++ [a]) ∧
    (∀ (a : Fin N) (nd : NodeDataM N V K) (es : List (Fin N))
        (producers : ℕ → List ℕ) (pathProducer : String → Option ℕ),
      nd.op = .valueOp a → heap a = .listSubV es →
      get_dep_nodes heap producers pathProducer nd = nd.pathins.filterMap pathProducer) ∧
    (∀ (a : Fin N) (nodes : ℕ → NodeDataM N V K) (es : List (Fin N))
        (producers : ℕ → List ℕ)
        (sortP : List (List (DescItem N V K)) → List (List (DescItem N V K)))
        (fuel nid : ℕ),
      (nodes nid).op = .valueOp a → heap a = .listSubV es →
      node_descriptor heap nodes producers sortP (fuel + 1) nid none
        = [DescItem.evt (.pathinsDescE (nodes nid).pathins),
           DescItem.evt (.pathoutsDescE (nodes nid).pathouts),
           DescItem.producersDesc (sortP ((producers nid).map
             (fun m => node_descriptor heap nodes producers sortP fuel m (some nid)))),
           DescItem.evt (.opTypeE "Value"), DescItem.evt (.valueId 0),
           DescItem.evt (.otherE (.listSubV es))]) := by
  have hwalkop : ∀ (a : Fin N) (es : List (Fin N)), heap a = .listSubV es →
      walk heap (.valueOp a) = [.opTypeE "Value", .valueId 0, .otherE (.listSubV es)] := by
    intro a es hh
    show WEvent.opTypeE "Value" :: (walk_list heap [a] ⟨[], List.nodup_nil⟩).1 = _
    rw [walk_list_cons, walk_list_nil, List.append_nil]
    have := walk_value_subclass_leaf heap a ⟨[], List.nodup_nil⟩ (by simp)
      (Or.inl ⟨es, hh⟩)
    rw [this.1, hh]
    rfl
  refine ⟨walk_value_subclass_leaf heap, ?_, ?_⟩
  · intro a nd es producers pathProducer hop hh
    unfold get_dep_nodes
    rw [hop, hwalkop a es hh]
    rfl
  · intro a nodes es producers sortP fuel nid hop hh
    rw [node_descriptor_succ, hop]
    rw [show (match OpH.valueOp a with
          | OpH.dataOp p i => if idTruthy i then OpH.dataOp none i else OpH.dataOp p i
          | o => o) = OpH.valueOp (V := V) (K := K) a from rfl]
    rw [hwalkop a es hh]
    rfl

/-- A heap hiding a node reference inside a strict list subclass: cell 0 is
the subclass instance, cell 1 the node reference it contains. -/
def heapSub : Fin 2 → PyVal 2 ℕ ℕ := fun i => if i = 0 then .listSubV [1] else .nodeV 7

/-- Witness for C9 (amended): the subclass container holding a node reference
is a single `Other` leaf, contributes no dependency, and leaves the node out
of the descriptor. -/
theorem C9_subclass_not_walked_witness :
    (walk_value heapSub 0 ⟨[], List.nodup_nil⟩).1
        = [.valueId 0, .otherE (heapSub 0)] ∧
    get_dep_nodes heapSub (fun _ => []) (fun _ => none)
        ⟨.valueOp 0, [], []⟩ = [] ∧
    node_descriptor heapSub (fun _ => ⟨.valueOp 0, [], []⟩) (fun _ => []) id 1 0 none
      = [DescItem.evt (.pathinsDescE []), DescItem.evt (.pathoutsDescE []),
         DescItem.producersDesc [], DescItem.evt (.opTypeE "Value"),
         DescItem.evt (.valueId 0), DescItem.evt (.otherE (.listSubV [1]))] := by
  refine ⟨?_, ?_, ?_⟩
  · exact ((C9_subclass_not_walked heapSub).1 0 ⟨[], List.nodup_nil⟩ (by simp)
      (Or.inl ⟨[1], rfl⟩)).1
  · exact (C9_subclass_not_walked heapSub).2.1 0 ⟨.valueOp 0, [], []⟩ [1]
      (fun _ => []) (fun _ => none) rfl rfl
  · exact (C9_subclass_not_walked heapSub).2.2 0 (fun _ => ⟨.valueOp 0, [], []⟩) [1]
      (fun _ => []) id 0 0 rfl rfl

lemma flatMap_congr_mem {α β : Type*} {l : List α} {f g : α → List β}
    (h : ∀ a ∈ l, f a = g a) : l.flatMap f = l.flatMap g := by
  induction l with
  | nil => rfl
  | cons x xs ih =>
    rw [List.flatMap_cons, List.flatMap_cons, h x (List.mem_cons_self _ _),
      ih (fun a ha => h a (List.mem_cons_of_mem _ ha))]

/-- Two node tables that agree everywhere except possibly on the payload of
`Data` operators whose `id` is truthy (non-`None`, non-empty). -/
def AgreeUpToDataPayload {N : ℕ} {V K : Type} (t1 t2 : ℕ → NodeDataM N V K) : Prop :=
  ∀ m, t1 m = t2 m ∨
    ∃ p q i pins pouts, idTruthy i = true ∧
      t1 m = ⟨OpH.dataOp p i, pins, pouts⟩ ∧ t2 m = ⟨OpH.dataOp q i, pins, pouts⟩

/-- C6: for a node whose operator is `Data(payload, id)` with a truthy `id`,
`node_descriptor` does not depend on the payload value — two tables equal up
to such payloads give equal descriptors everywhere (in particular two such
nodes with equal `id` and different payloads have equal descriptors).  For a
node with `Data(payload, id=None)`, the payload participates in the
descriptor by value: the descriptor ends with the `DataOp` event carrying the
payload, so different payloads give different descriptors. -/
theorem C6_data_id_descriptor {N : ℕ} {V K : Type} (heap : Fin N → PyVal N V K)
    (producers : ℕ → List ℕ)
    (sortP : List (List (DescItem N V K)) → List (List (DescItem N V K))) :
    (∀ t1 t2 : ℕ → NodeDataM N V K, AgreeUpToDataPayload t1 t2 →
      ∀ fuel nid rn,
        node_descriptor heap t1 producers sortP fuel nid rn
          = node_descriptor heap t2 producers sortP fuel nid rn) ∧
    (∀ (t : ℕ → NodeDataM N V K) (p : Option (Fin N)) (pins pouts : List String)
        (fuel nid : ℕ) (rn : Option ℕ), t nid = ⟨OpH.dataOp p none, pins, pouts⟩ →
      node_descriptor heap t producers sortP (fuel + 1) nid rn
        = [DescItem.evt (.pathinsDescE pins), DescItem.evt (.pathoutsDescE pouts),
           DescItem.producersDesc (sortP ((producers nid).map
             (fun m => node_descriptor heap t producers sortP fuel m (some nid)))),
           DescItem.evt (.opTypeE "Data"), DescItem.evt (.dataOpE (.dataOp p none))]) ∧
    (∀ (t1 t2 : ℕ → NodeDataM N V K) (p1 p2 : Option (Fin N))
        (pins pouts : List String) (fuel nid : ℕ) (rn : Option ℕ),
      t1 nid = ⟨OpH.dataOp p1 none, pins, pouts⟩ →
      t2 nid = ⟨OpH.dataOp p2 none, pins, pouts⟩ → p1 ≠ p2 →
      node_descriptor heap t1 producers sortP (fuel + 1) nid rn
        ≠ node_descriptor heap t2 producers sortP (fuel + 1) nid rn) := by
  have hdata : ∀ (t : ℕ → NodeDataM N V K) (p : Option (Fin N)) (pins pouts : List String)
      (fuel nid : ℕ) (rn : Option ℕ), t nid = ⟨OpH.dataOp p none, pins, pouts⟩ →
      node_descriptor heap t producers sortP (fuel + 1) nid rn
        = [DescItem.evt (.pathinsDescE pins), DescItem.evt (.pathoutsDescE pouts),
           DescItem.producersDesc (sortP ((producers nid).map
             (fun m => node_descriptor heap t producers sortP fuel m (some nid)))),
           DescItem.evt (.opTypeE "Data"), DescItem.evt (.dataOpE (.dataOp p none))] := by
    intro t p pins pouts fuel nid rn ht
    rw [node_descriptor_succ, ht]
    rfl
  have hindep : ∀ t1 t2 : ℕ → NodeDataM N V K, AgreeUpToDataPayload t1 t2 →
      ∀ fuel nid rn,
        node_descriptor heap t1 producers sortP fuel nid rn
          = node_descriptor heap t2 producers sortP fuel nid rn := by
    intro t1 t2 hagree fuel
    induction fuel with
    | zero => intro nid rn; rfl
    | succ fuel ih =>
      intro nid rn
      have hmap : (producers nid).map
            (fun m => node_descriptor heap t1 producers sortP fuel m (some nid))
          = (producers nid).map
            (fun m => node_descriptor heap t2 producers sortP fuel m (some nid)) :=
        List.map_congr_left (fun m _ => ih m (some nid))
      have hflat : ∀ op : OpH N V K,
          (walk heap op).flatMap (fun e =>
            match e with
            | .nodeE (some m) =>
              [DescItem.evt (.nodeE none),
               DescItem.subDesc (node_descriptor heap t1 producers sortP fuel m none)]
            | .resourceOutE (some m) =>
              if rn = some m then
                [DescItem.evt (.resourceOutE none), DescItem.evt .producedResourceDescE]
              else
                [DescItem.evt (.resourceOutE none),
                 DescItem.subDesc (node_descriptor heap t1 producers sortP fuel m none)]
            | .resourceInE (some m) =>
              [DescItem.evt (.resourceInE none),
               DescItem.subDesc (node_descriptor heap t1 producers sortP fuel m none)]
            | .otherE (.moduleV nm) => [DescItem.evt (.moduleDescE nm)]
            | e => [DescItem.evt e])
          = (walk heap op).flatMap (fun e =>
            match e with
            | .nodeE (some m) =>
              [DescItem.evt (.nodeE none),
               DescItem.subDesc (node_descriptor heap t2 producers sortP fuel m none)]
            | .resourceOutE (some m) =>
              if rn = some m then
                [DescItem.evt (.resourceOutE none), DescItem.evt .producedResourceDescE]
              else
                [DescItem.evt (.resourceOutE none),
                 DescItem.subDesc (node_descriptor heap t2 producers sortP fuel m none)]
            | .resourceInE (some m) =>
              [DescItem.evt (.resourceInE none),
               DescItem.subDesc (node_descriptor heap t2 producers sortP fuel m none)]
            | .otherE (.moduleV nm) => [DescItem.evt (.moduleDescE nm)]
            | e => [DescItem.evt e]) := by
        intro op
        apply flatMap_congr_mem
        intro e _
        cases e with
        | nodeE o =>
          cases o with
          | none => rfl
          | some m => simp only [ih]
        | resourceOutE o =>
          cases o with
          | none => rfl
          | some m =>
            by_cases hrn : rn = some m
            · simp only [if_pos hrn]
            · simp only [if_neg hrn, ih]
        | resourceInE o =>
          cases o with
          | none => rfl
          | some m => simp only [ih]
        | otherE v => cases v <;> rfl
        | valueId i => rfl
        | refE i => rfl
        | opTypeE nm => rfl
        | dataOpE o => rfl
        | pathOutE p => rfl
        | pathInE p => rfl
        | ctxE => rfl
        | unsetE => rfl
        | tupleE sz => rfl
        | listE sz => rfl
        | dictE ks => rfl
        | funcE c => rfl
        | moduleDescE nm => rfl
        | pathinsDescE ps => rfl
        | pathoutsDescE ps => rfl
        | producedResourceDescE => rfl
      rcases hagree nid with heq | ⟨p, q, i, pins, pouts, hid, h1, h2⟩
      · rw [node_descriptor_succ, node_descriptor_succ, heq, hmap, hflat]
      · rw [node_descriptor_succ, node_descriptor_succ, h1, h2]
        simp only [hid, if_true, hmap, hflat]
  refine ⟨hindep, hdata, ?_⟩
  intro t1 t2 p1 p2 pins pouts fuel nid rn h1 h2 hne
  rw [hdata t1 p1 pins pouts fuel nid rn h1, hdata t2 p2 pins pouts fuel nid rn h2]
  intro heq
  simp only [List.cons.injEq, DescItem.evt.injEq, WEvent.dataOpE.injEq,
    OpH.dataOp.injEq, and_true] at heq
  exact hne heq.2.2.2.2

/-- Tables for the C6 witness: node 0 is `Data(payload, id="k")`; node 1 is
`Data(payload, id=None)`.  `dataT3` equals `dataT1` except for node 0's
payload; `dataT2` differs from `dataT1` in node 1's payload. -/
def dataT1 : ℕ → NodeDataM 1 ℕ ℕ :=
  fun m => if m = 0 then ⟨OpH.dataOp (some 0) (some "k"), [], []⟩
    else ⟨OpH.dataOp (some 0) none, [], []⟩

def dataT2 : ℕ → NodeDataM 1 ℕ ℕ :=
  fun m => if m = 0 then ⟨OpH.dataOp (some 0) (some "k"), [], []⟩
    else ⟨OpH.dataOp none none, [], []⟩

def dataT3 : ℕ → NodeDataM 1 ℕ ℕ :=
  fun m => if m = 0 then ⟨OpH.dataOp none (some "k"), [], []⟩
    else ⟨OpH.dataOp (some 0) none, [], []⟩

def dataHeap : Fin 1 → PyVal 1 ℕ ℕ := fun _ => .otherV 5

/-- Witness for C6: with a truthy id the two payloads give equal descriptors
at node 0; with `id=None` the payloads flow into the descriptor and node 1's
descriptors differ. -/
theorem C6_data_id_descriptor_witness :
    (node_descriptor dataHeap dataT1 (fun _ => []) id 3 0 none
      = node_descriptor dataHeap dataT3 (fun _ => []) id 3 0 none) ∧
    (node_descriptor dataHeap dataT1 (fun _ => []) id 3 1 none
      ≠ node_descriptor dataHeap dataT2 (fun _ => []) id 3 1 none) := by
  constructor
  · apply (C6_data_id_descriptor dataHeap (fun _ => []) id).1
    · intro m
      by_cases hm : m = 0
      · exact Or.inr ⟨some 0, none, some "k", [], [], by decide, by simp [dataT1, hm],
          by simp [dataT3, hm]⟩
      · exact Or.inl (by simp [dataT1, dataT3, hm])
  · exact (C6_data_id_descriptor dataHeap (fun _ => []) id).2.2 dataT1 dataT2
      (some 0) none [] [] 2 1 none (by simp [dataT1]) (by simp [dataT2]) (by decide)


/-! ### C8: auto-naming of nodes and subgraphs (gn.py `Graph.__add_node`,
`Graph.__add_graph`)

`Graph.__add_node` (gn.py lines 336-362): if `node._name` is falsy, a prefix
is taken from `node._name_prefix`, or the callable's `__name__` for `Call`
ops, or `"unnamed"`; then the loop `while node._name in self.__name2node:`
tries `prefix`, `prefix-1`, `prefix-2`, ... and keeps the first free one.
`Graph.__add_graph` (lines 325-334): an unnamed subgraph gets the fixed name
`f'graph-{len(self.__graphs)}'` and, if that name is taken in the shared
`__name2node` namespace, a `ValueError` is raised -- there is no suffix scan
for subgraphs.  The namespace `__name2node` is modelled as the list `used`
of names already registered. -/

/-- Arguments of `Graph.__add_node` relevant to naming: `node._name`,
`node._name_prefix`, and `node._op.fn.__name__` when `node._op` is a `Call`
whose callable has a `__name__` attribute. -/
structure AddNodeArgs where
  name : Option String
  namePre : Option String
  callFnName : Option String
deriving DecidableEq

/-- The prefix chosen by `__add_node` when `node._name` is falsy. -/
def resolvedPre (a : AddNodeArgs) : String :=
  if idTruthy a.namePre then a.namePre.getD ""
  else match a.callFnName with
    | some f => f
    | none => "unnamed"

/-- The i-th candidate name tried by the while loop: `prefix` for `i = 0`,
then `f'{prefix}-{idx}'` for `idx = 1, 2, ...`. -/
def candName (pre : String) (i : ℕ) : String :=
  if i = 0 then pre else pre ++ "-" ++ toString i

/-- The while loop `while node._name in self.__name2node:` of `__add_node`,
with explicit fuel (the Python loop stops as soon as a candidate is free). -/
def scanName (used : List String) (pre : String) : ℕ → ℕ → Option String
  | 0, _ => none
  | fuel + 1, i =>
    if candName pre i ∈ used then scanName used pre fuel (i + 1)
    else some (candName pre i)

/-- `Graph.__add_node` (gn.py lines 336-362), restricted to the naming logic:
returns the assigned name and the updated namespace, or the `ValueError`
message.  Fuel `used.length + 1` covers the Python loop, which stops at the
first free candidate. -/
def add_node (used : List String) (a : AddNodeArgs) :
    Except String (String × List String) :=
  let nm? : Option String :=
    if idTruthy a.name then a.name
    else scanName used (resolvedPre a) (used.length + 1) 0
  match nm? with
  | none => Except.error "auto-naming failed"
  | some nm =>
    if nm ∈ used then Except.error ("there is already a node named " ++ nm)
    else Except.ok (nm, used ++ [nm])

/-- `Graph.__add_graph` (gn.py lines 325-334): an unnamed subgraph is named
`f'graph-{len(self.__graphs)}'`; a clash with an existing name raises
`ValueError` with no suffix scan.  `count` is `len(self.__graphs)`. -/
def add_graph (used : List String) (count : ℕ) (name : Option String) :
    Except String (String × List String) :=
  let nm := if idTruthy name then name.getD "" else "graph-" ++ toString count
  if nm ∈ used then Except.error ("there is already a node named " ++ nm)
  else Except.ok (nm, used ++ [nm])

theorem scanName_spec (used : List String) (pre : String) :
    ∀ fuel start, (∃ j, j < fuel ∧ candName pre (start + j) ∉ used) →
      ∃ j, scanName used pre fuel start = some (candName pre (start + j))
        ∧ candName pre (start + j) ∉ used
        ∧ ∀ k, k < j → candName pre (start + k) ∈ used := by
  intro fuel
  induction fuel with
  | zero =>
    rintro start ⟨j, hj, _⟩
    omega
  | succ fuel ih =>
    rintro start ⟨j, hj, hfree⟩
    by_cases hc : candName pre start ∈ used
    · have hstep : ∃ j, j < fuel ∧ candName pre (start + 1 + j) ∉ used := by
        cases j with
        | zero =>
          exact absurd (by simpa using hfree) (by simpa using hc)
        | succ j0 =>
          refine ⟨j0, by omega, ?_⟩
          have harith : start + 1 + j0 = start + (j0 + 1) := by omega
          rw [harith]
          exact hfree
      obtain ⟨j1, hscan, hfree1, hall1⟩ := ih (start + 1) hstep
      refine ⟨j1 + 1, ?_, ?_, ?_⟩
      · have harith : start + (j1 + 1) = start + 1 + j1 := by omega
        rw [harith]
        simpa [scanName, hc] using hscan
      · have harith : start + (j1 + 1) = start + 1 + j1 := by omega
        rw [harith]
        exact hfree1
      · intro k hk
        cases k with
        | zero => simpa using hc
        | succ k0 =>
          have harith : start + (k0 + 1) = start + 1 + k0 := by omega
          rw [harith]
          exact hall1 k0 (by omega)
    · exact ⟨0, by simp [scanName, hc], by simpa using hc, by omega⟩

/-- C8 (corrected).  Nodes: when `node._name` is falsy and some candidate
`prefix`, `prefix-1`, ..., `prefix-(len(used))` is free, `__add_node` assigns
the first free candidate and the add succeeds, registering the name.
Subgraphs: when the subgraph is unnamed and its fixed auto-name
`graph-<count>` is already taken, `__add_graph` raises `ValueError` instead
of scanning suffixes, so the add does not succeed. -/
theorem C8_auto_naming (used : List String) (a : AddNodeArgs) (count : ℕ)
    (hname : idTruthy a.name = false)
    (hfree : ∃ j, j < used.length + 1 ∧ candName (resolvedPre a) j ∉ used) :
    (∃ i, add_node used a
        = Except.ok (candName (resolvedPre a) i,
            used ++ [candName (resolvedPre a) i])
      ∧ candName (resolvedPre a) i ∉ used
      ∧ ∀ k, k < i → candName (resolvedPre a) k ∈ used)
    ∧ ("graph-" ++ toString count ∈ used →
        add_graph used count none
          = Except.error
              ("there is already a node named " ++ ("graph-" ++ toString count))) := by
  constructor
  · obtain ⟨j, hscan, hfreej, hall⟩ :=
      scanName_spec used (resolvedPre a) (used.length + 1) 0
        (by simpa using hfree)
    simp only [Nat.zero_add] at hscan hfreej hall
    refine ⟨j, ?_, hfreej, hall⟩
    simp only [add_node, hname, Bool.false_eq_true, if_false]
    rw [hscan]
    simp [hfreej]
  · intro hmem
    simp [add_graph, idTruthy, hmem]

/-- Witness for C8: with `used = ["f", "f-1"]` and a `Call` node whose
callable is named `f`, the scan assigns `f-2`; with `used = ["graph-0"]`
an unnamed subgraph errors out. -/
theorem C8_auto_naming_witness :
    ((∃ i, add_node ["f", "f-1"] ⟨none, none, some "f"⟩
        = Except.ok (candName (resolvedPre ⟨none, none, some "f"⟩) i,
            ["f", "f-1"] ++ [candName (resolvedPre ⟨none, none, some "f"⟩) i])
      ∧ candName (resolvedPre ⟨none, none, some "f"⟩) i ∉ (["f", "f-1"] : List String)
      ∧ ∀ k, k < i →
          candName (resolvedPre ⟨none, none, some "f"⟩) k ∈ (["f", "f-1"] : List String))
    ∧ ("graph-" ++ toString 0 ∈ (["f", "f-1"] : List String) →
        add_graph ["f", "f-1"] 0 none
          = Except.error
              ("there is already a node named " ++ ("graph-" ++ toString 0)))) :=
  C8_auto_naming ["f", "f-1"] ⟨none, none, some "f"⟩ 0 (by decide)
    ⟨2, by decide, by decide⟩

/-- Counterexample to C8 as stated: a graph whose namespace already holds
the name `graph-0` (e.g. from a node) and an unnamed subgraph added when
`len(self.__graphs) = 0`.  The claim says the collision is resolved by
suffixing `-1`, `-2`, ... and the add succeeds; the code raises `ValueError`
and the add fails. -/
theorem C8_counterexample :
    add_graph ["graph-0"] 0 none
      = Except.error "there is already a node named graph-0" := by
  rfl

end Yape
